import Mathlib

/-!
# NegativeFilter: the four negation kernels of `negativeFilter.cpp`

A shallow embedding of `src/negativeFilter.cpp`.

* `unsigned` values are natural numbers reduced modulo `2^32` after every
  arithmetic operation (`uadd`, `umul`).
* An `unsigned char` is a `Byte` (`Fin 256`); the expression `255 - b` is
  computed in `Int` and truncated by `toUChar`, as the C++ conversions do.
* The pixel buffer is the field `bytes` of an `Image`.  The field `log` is
  ghost state: every memory access the code performs is appended to it,
  together with the id of the worker thread that performed it.  Pointers into
  the buffer are represented by their byte offset from `image`.
* `for` loops with a counter running from `0` to a bound are folds over
  `List.range`; the two pointer loops of the vectorised kernels are
  fuel-indexed loops whose fuel is the row length.
* The lane accesses use the aligned intrinsics, which fault when the address
  is not a multiple of 16. The vectorised kernels are therefore given twice:
  `negateLaneAt`, `negateRow` and the `_loop` functions describe the accesses
  the code attempts and their effect on the data when no access faults; the
  `_run` functions execute the same code with the address check and stop at
  the first invalid lane access (`Outcome.fault`). The pipeline functions use
  the `_run` functions.
* An OpenMP work-sharing loop is executed along a schedule: a list of
  `(worker, iteration)` pairs in the order in which the iterations run. This
  stands for a parallel execution as long as distinct iterations touch
  distinct bytes, which is the case without 32-bit wrap-around; the `int`
  counters are represented by their `unsigned` values, which is exact for
  dimensions below `2^31`.
-/

namespace NegativeFilter

/-! ## Machine arithmetic -/

/-- An `unsigned char`. -/
abbrev Byte := Fin 256

/-- Addition of two `unsigned` values. -/
def uadd (a b : Nat) : Nat := (a + b) % 2 ^ 32

/-- Multiplication of two `unsigned` values. -/
def umul (a b : Nat) : Nat := (a * b) % 2 ^ 32

/-- Conversion of an `int` to `unsigned char` (reduction modulo 256). -/
def toUChar (v : Int) : Byte :=
  ⟨(v % 256).toNat, by
    have h1 := Int.emod_nonneg v (by decide : (256 : Int) ≠ 0)
    have h2 := Int.emod_lt_of_pos v (by decide : (0 : Int) < 256)
    omega⟩

/-! ## Memory and the access log -/

/-- A memory access: one byte at an offset, or one 16-byte lane at an offset
(a `_mm_load_si128` followed by a `_mm_store_si128` at the same pointer). -/
inductive Access where
  | byte (pos : Nat)
  | lane (pos : Nat)
  deriving DecidableEq, Repr

/-- A logged access with the id of the worker that performed it. -/
structure Entry where
  tid : Nat
  acc : Access
  deriving DecidableEq, Repr

/-- The decoded buffer `image` together with the ghost access log. -/
structure Image where
  bytes : List Byte
  log : List Entry
  deriving DecidableEq, Repr

/-- The byte offsets touched by an access. -/
def Access.positions : Access → List Nat
  | .byte p => [p]
  | .lane p => List.range' p 16

/-- All byte offsets touched by a log, in the order of the accesses. -/
def positionsOf (l : List Entry) : List Nat :=
  l.flatMap (fun e => e.acc.positions)

/-- The statement `image[i] = 255 - image[i];` (also `*row = 255 - *row;`
with `i` the offset of `row`), executed by worker `tid`. -/
def negateByteAt (tid i : Nat) (image : Image) : Image :=
  { bytes := image.bytes.set i (toUChar (255 - ((image.bytes.getD i 0).val : Int)))
    log := image.log ++ [⟨tid, .byte i⟩] }

/-! ## Sequential kernel (lines 31-38) and OpenMP kernel (lines 62-70) -/

/-- The body of the pixel loops (lines 33-36 and 65-68, textually equal):
`index = (y * width + x) * 3` in `unsigned` arithmetic, then the three
channel statements.  In `negateImageOMP` the counters are `int`; they are
converted to `unsigned` by the usual arithmetic conversions. -/
def negatePixel (tid width y x : Nat) (image : Image) : Image :=
  let index := umul (uadd (umul y width) x) 3
  let image := negateByteAt tid (uadd index 0) image
  let image := negateByteAt tid (uadd index 1) image
  negateByteAt tid (uadd index 2) image

/-- The row loop body of `negateImage`: `for (x = 0; x < width; x++)`. -/
def negateImage_row (width y : Nat) (image : Image) : Image :=
  (List.range width).foldl (fun img x => negatePixel 0 width y x img) image

/-- The loop nest of `negateImage` (lines 31-38), run by the calling thread
(worker 0). -/
def negateImage_loop (width height : Nat) (image : Image) : Image :=
  (List.range height).foldl (fun img y => negateImage_row width y img) image

/-- The iteration space of the `collapse(2)` loop nest of `negateImageOMP`:
all pairs `(y, x)` with `y < height` and `x < width`, in sequential order.
The `int` counters are compared with the `unsigned` bounds after conversion to
`unsigned`, so a counter is represented by its `unsigned` value. -/
def collapsedIterations (width height : Nat) : List (Nat × Nat) :=
  (List.range height).flatMap (fun y => (List.range width).map (fun x => (y, x)))

/-- The parallel loop of `negateImageOMP` (lines 62-70) run along a schedule:
the pair `(t, (y, x))` means that worker `t` executes the body for `(y, x)`.
Iterations are executed one after the other, in the order of the list. -/
def negateImageOMP_loop (width : Nat) (sched : List (Nat × (Nat × Nat)))
    (image : Image) : Image :=
  sched.foldl (fun img s => negatePixel s.1 width s.2.1 s.2.2 img) image

/-- A schedule of the collapsed loop: every iteration `(y, x)` is executed
exactly once, by some worker, in some order. -/
def CollapsedSchedule (width height : Nat) (sched : List (Nat × (Nat × Nat))) : Prop :=
  (sched.map Prod.snd).Perm (collapsedIterations width height)

/-! ## Vectorised kernels (lines 94-110 and 134-152) -/

/-- The intrinsic `_mm_set1_epi8(a)`: sixteen copies of `a` converted to a byte. -/
def _mm_set1_epi8 (a : Int) : List Byte := List.replicate 16 (toUChar a)

/-- The data read by `_mm_load_si128((__m128i*)row)`: the 16 bytes at offsets
`row .. row + 15`. -/
def _mm_load_si128 (bytes : List Byte) (row : Nat) : List Byte :=
  (List.range 16).map (fun k => bytes.getD (row + k) 0)

/-- The intrinsic `_mm_sub_epi8(a, b)`: bytewise subtraction modulo 256. -/
def _mm_sub_epi8 (a b : List Byte) : List Byte :=
  List.zipWith (fun x y => toUChar ((x.val : Int) - (y.val : Int))) a b

/-- The memory after `_mm_store_si128((__m128i*)row, data)`: byte `k` of
`data` is written at offset `row + k`. -/
def _mm_store_si128 (bytes : List Byte) (row : Nat) (data : List Byte) : List Byte :=
  (List.range 16).foldl (fun m k => m.set (row + k) (data.getD k 0)) bytes

/-- The constant `ones` of lines 94 and 134. -/
def ones : List Byte := _mm_set1_epi8 255

/-- The effect of the body of the lane loop (lines 102-104 and 144-146) when
the lane address is valid: load the lane, subtract it from `ones`, store it
at the same pointer; the access is logged as a `lane`. The body as the code
executes it, with the address requirement of the aligned intrinsics
(`laneValid`), is `negateLaneAt_run`. -/
def negateLaneAt (tid row : Nat) (image : Image) : Image :=
  let data := _mm_load_si128 image.bytes row
  let data := _mm_sub_epi8 ones data
  { bytes := _mm_store_si128 image.bytes row data
    log := image.log ++ [⟨tid, .lane row⟩] }

/-- The lane loop `for (; row + 15 < end; row += 16)` when no lane access
faults; returns the final value of `row` and the memory. The loop with the
address check is `laneLoop_run`. -/
def laneLoop (tid : Nat) : Nat → Nat → Nat → Image → Nat × Image
  | 0, row, _, image => (row, image)
  | fuel + 1, row, end_, image =>
    if row + 15 < end_ then laneLoop tid fuel (row + 16) end_ (negateLaneAt tid row image)
    else (row, image)

/-- The remainder loop `for (; row < end; ++row)`; returns the final value of
`row` and the memory. -/
def scalarLoop (tid : Nat) : Nat → Nat → Nat → Image → Nat × Image
  | 0, row, _, image => (row, image)
  | fuel + 1, row, end_, image =>
    if row < end_ then scalarLoop tid fuel (row + 1) end_ (negateByteAt tid row image)
    else (row, image)

/-- The body of the row loops of the vectorised kernels (lines 96-109 and
138-151, textually equal) when no lane access faults: `index = y * width * 3`
and `length = width * 3` in `unsigned` arithmetic, `row = image + index`,
`end = row + length`. Its log lists the accesses the body attempts. The body
with the address check is `negateRow_run`. -/
def negateRow (tid width y : Nat) (image : Image) : Image :=
  let index := umul (umul y width) 3
  let length := umul width 3
  let row := index
  let end_ := row + length
  let s := laneLoop tid length row end_ image
  (scalarLoop tid length s.1 end_ s.2).2

/-- The row loop of `vectorisationNegateFilter` (lines 95-110), run by the
calling thread (worker 0), when no lane access faults. The loop with the
address check is `vectorisationNegateFilter_run`. -/
def vectorisationNegateFilter_loop (width height : Nat) (image : Image) : Image :=
  (List.range height).foldl (fun img y => negateRow 0 width y img) image

/-- The parallel row loop of `OpenMPVectorisationNnegateFilter` (lines
136-152) run along a schedule: `(t, y)` means worker `t` executes row `y`.
Iterations are executed one after the other, in the order of the list. The
`int` counter `y` is represented by its `unsigned` value, to which it is
converted in the comparison and in the product. This is the loop when no lane
access faults; the loop with the address check is
`OpenMPVectorisationNnegateFilter_run`. -/
def OpenMPVectorisationNnegateFilter_loop (width : Nat) (sched : List (Nat × Nat))
    (image : Image) : Image :=
  sched.foldl (fun img s => negateRow s.1 width s.2 img) image

/-- A schedule of the row loop: every row `y < height` is executed exactly
once, by some worker, in some order. -/
def RowSchedule (height : Nat) (sched : List (Nat × Nat)) : Prop :=
  (sched.map Prod.snd).Perm (List.range height)

/-- The buffer with every byte `b` replaced by `255 - b`. -/
def negated (bytes : List Byte) : List Byte :=
  bytes.map (fun b => toUChar (255 - (b.val : Int)))

/-- A fresh image: the decoded bytes and an empty access log. -/
def Image.ofBytes (bytes : List Byte) : Image := { bytes := bytes, log := [] }

/-- A sample image of `n` bytes with the values `0, 7, 14, ...` modulo 256. -/
def rampImage (n : Nat) : Image :=
  Image.ofBytes ((List.range n).map (fun k => toUChar (7 * (k : Int))))

/-- An all-black image of the given dimensions (every byte `0`). -/
def blackImage (width height : Nat) : Image :=
  Image.ofBytes (List.replicate (width * height * 3) 0)

/-- The address requirement of `_mm_load_si128` and `_mm_store_si128`: the
intrinsics are the aligned forms, whose address must be a multiple of 16
(otherwise a general-protection fault may be raised); a byte access has no
alignment requirement. `base` is the address of the buffer. -/
def laneValid (base : Nat) (a : Access) : Bool :=
  match a with
  | .lane pos => (base + pos) % 16 == 0
  | .byte _ => true

/-- All the lane accesses of a log meet the address requirement. -/
def lanesAligned (base : Nat) (l : List Entry) : Bool :=
  l.all (fun e => laneValid base e.acc)

/-- The row schedule in which worker 0 executes every row, in order. -/
def singleWorkerRows (height : Nat) : List (Nat × Nat) :=
  (List.range height).map (fun y => (0, y))

/-! ## The vectorised kernels with the address check

The aligned intrinsics `_mm_load_si128` and `_mm_store_si128` fault when their
address `image + row` is not a multiple of 16. `base` is the address of the
buffer. -/

/-- How a piece of code ends: it ran to completion with a value, or it was
stopped by the fault of an invalid lane access; `image` is then the memory
and the log of the accesses performed before the fault. -/
inductive Outcome (α : Type) where
  | done (value : α)
  | fault (image : Image)
  deriving DecidableEq, Repr

/-- Sequencing: continue with `f` after a completed step, stay stopped after
a fault. -/
def Outcome.andThen {α β : Type} (o : Outcome α) (f : α → Outcome β) : Outcome β :=
  match o with
  | .done value => f value
  | .fault image => .fault image

/-- The body of the lane loop (lines 102-104 and 144-146) as executed: the
load `_mm_load_si128((__m128i*)row)` faults unless `image + row` is a multiple
of 16; otherwise the lane is loaded, subtracted from `ones` and stored. -/
def negateLaneAt_run (base tid row : Nat) (image : Image) : Outcome Image :=
  if laneValid base (.lane row) = true then .done (negateLaneAt tid row image)
  else .fault image

/-- The lane loop `for (; row + 15 < end; row += 16)` as executed. -/
def laneLoop_run (base tid : Nat) : Nat → Nat → Nat → Image → Outcome (Nat × Image)
  | 0, row, _, image => .done (row, image)
  | fuel + 1, row, end_, image =>
    if row + 15 < end_ then
      (negateLaneAt_run base tid row image).andThen
        (fun image2 => laneLoop_run base tid fuel (row + 16) end_ image2)
    else .done (row, image)

/-- The body of the row loops of the vectorised kernels (lines 96-109 and
138-151) as executed: the lane loop, then the remainder loop (whose byte
accesses have no address requirement). -/
def negateRow_run (base tid width y : Nat) (image : Image) : Outcome Image :=
  let index := umul (umul y width) 3
  let length := umul width 3
  let row := index
  let end_ := row + length
  (laneLoop_run base tid length row end_ image).andThen
    (fun s => .done (scalarLoop tid length s.1 end_ s.2).2)

/-- The row loop of `vectorisationNegateFilter` (lines 95-110) as executed by
the calling thread (worker 0). -/
def vectorisationNegateFilter_run (base width height : Nat) (image : Image) :
    Outcome Image :=
  (List.range height).foldl
    (fun acc y => acc.andThen (fun img => negateRow_run base 0 width y img)) (.done image)

/-- The parallel row loop of `OpenMPVectorisationNnegateFilter` (lines
136-152) as executed along a schedule; a fault in one worker stops the
program. -/
def OpenMPVectorisationNnegateFilter_run (base width : Nat) (sched : List (Nat × Nat))
    (image : Image) : Outcome Image :=
  sched.foldl
    (fun acc s => acc.andThen (fun img => negateRow_run base s.1 width s.2 img))
    (.done image)

/-- What `lodepng_decode24_file(&image, &width, &height, filename)` yields:
the returned error code and the values stored through the three pointers;
`image` is the content of the buffer and `base` its address. -/
structure Decoded where
  error : Nat
  image : List Byte
  width : Nat
  height : Nat
  base : Nat

/-- The lodepng functions the pipelines call (external to this repository). -/
structure Codec where
  lodepng_decode24_file : String → Decoded
  lodepng_encode24_file : String → List Byte → Nat → Nat → Nat
  lodepng_error_text : Nat → String

/-- What a pipeline function does that is visible from outside, in order.
`crash` is the end of the program by the fault of an invalid lane access: the
function does not return. -/
inductive Event where
  | decode (filename : String)
  | cerr (text : String)
  | access (entry : Entry)
  | encode (filename : String) (image : List Byte) (width height : Nat)
  | free
  | crash
  deriving DecidableEq, Repr

/-- The function `negateImage` (lines 20-47). -/
def negateImage (lib : Codec) (inputFilename outputFilename : String) : List Event :=
  let d := lib.lodepng_decode24_file inputFilename
  if d.error ≠ 0 then
    [.decode inputFilename,
     .cerr ("Failed to load image: " ++ lib.lodepng_error_text d.error)]
  else
    let image := negateImage_loop d.width d.height (Image.ofBytes d.image)
    let error := lib.lodepng_encode24_file outputFilename image.bytes d.width d.height
    [.decode inputFilename] ++ image.log.map .access
      ++ [.encode outputFilename image.bytes d.width d.height]
      ++ (if error ≠ 0 then
            [.cerr ("Failed to save image: " ++ lib.lodepng_error_text error)]
          else [.free])

/-- The function `negateImageOMP` (lines 51-79); `sched` gives the schedule
the OpenMP runtime follows for the decoded dimensions. -/
def negateImageOMP (sched : Nat → Nat → List (Nat × (Nat × Nat))) (lib : Codec)
    (inputFilename outputFilename : String) : List Event :=
  let d := lib.lodepng_decode24_file inputFilename
  if d.error ≠ 0 then
    [.decode inputFilename,
     .cerr ("Failed to load image: " ++ lib.lodepng_error_text d.error)]
  else
    let image := negateImageOMP_loop d.width (sched d.width d.height) (Image.ofBytes d.image)
    let error := lib.lodepng_encode24_file outputFilename image.bytes d.width d.height
    [.decode inputFilename] ++ image.log.map .access
      ++ [.encode outputFilename image.bytes d.width d.height]
      ++ (if error ≠ 0 then
            [.cerr ("Failed to save image: " ++ lib.lodepng_error_text error)]
          else [.free])

/-- The function `vectorisationNegateFilter` (lines 83-119). When a lane
access faults the program ends there: nothing after the loop is executed. -/
def vectorisationNegateFilter (lib : Codec) (inputFilename outputFilename : String) :
    List Event :=
  let d := lib.lodepng_decode24_file inputFilename
  if d.error ≠ 0 then
    [.decode inputFilename,
     .cerr ("Failed to load image: " ++ lib.lodepng_error_text d.error)]
  else
    match vectorisationNegateFilter_run d.base d.width d.height (Image.ofBytes d.image) with
    | .fault image => [.decode inputFilename] ++ image.log.map .access ++ [.crash]
    | .done image =>
      let error := lib.lodepng_encode24_file outputFilename image.bytes d.width d.height
      [.decode inputFilename] ++ image.log.map .access
        ++ [.encode outputFilename image.bytes d.width d.height]
        ++ (if error ≠ 0 then
              [.cerr ("Failed to save image: " ++ lib.lodepng_error_text error)]
            else [.free])

/-- The function `OpenMPVectorisationNnegateFilter` (lines 123-161); `sched`
gives the schedule the OpenMP runtime follows for the decoded height. When a
lane access faults the program ends there. -/
def OpenMPVectorisationNnegateFilter (sched : Nat → List (Nat × Nat)) (lib : Codec)
    (inputFilename outputFilename : String) : List Event :=
  let d := lib.lodepng_decode24_file inputFilename
  if d.error ≠ 0 then
    [.decode inputFilename,
     .cerr ("Failed to load image: " ++ lib.lodepng_error_text d.error)]
  else
    match OpenMPVectorisationNnegateFilter_run d.base d.width (sched d.height)
        (Image.ofBytes d.image) with
    | .fault image => [.decode inputFilename] ++ image.log.map .access ++ [.crash]
    | .done image =>
      let error := lib.lodepng_encode24_file outputFilename image.bytes d.width d.height
      [.decode inputFilename] ++ image.log.map .access
        ++ [.encode outputFilename image.bytes d.width d.height]
        ++ (if error ≠ 0 then
              [.cerr ("Failed to save image: " ++ lib.lodepng_error_text error)]
            else [.free])

/-- The pixel schedule in which worker 0 executes every iteration, in order. -/
def singleWorkerPixels (width height : Nat) : List (Nat × (Nat × Nat)) :=
  (collapsedIterations width height).map (fun it => (0, it))

/-- A codec whose decode step fails with error 78 (file cannot be opened). -/
def missingInput : Codec :=
  { lodepng_decode24_file := fun _ => { error := 78, image := [], width := 0, height := 0, base := 0 }
    lodepng_encode24_file := fun _ _ _ _ => 0
    lodepng_error_text := fun _ => "failed to open file for reading" }

/-- A codec that decodes a 1 x 1 black image and whose encode step fails with
error 79 (file cannot be opened for writing). -/
def unwritableOutput : Codec :=
  { lodepng_decode24_file := fun _ =>
      { error := 0, image := [0, 0, 0], width := 1, height := 1, base := 4096 }
    lodepng_encode24_file := fun _ _ _ _ => 79
    lodepng_error_text := fun _ => "failed to open file for writing" }

/-- A codec that decodes a 1 x 1 black image and whose encode step succeeds. -/
def workingCodec : Codec :=
  { lodepng_decode24_file := fun _ =>
      { error := 0, image := [0, 0, 0], width := 1, height := 1, base := 4096 }
    lodepng_encode24_file := fun _ _ _ _ => 0
    lodepng_error_text := fun _ => "no error" }

/-! ## Pure description of the kernels' effect on the bytes -/

/-- The byte transform `b ↦ 255 - b` as the code computes it. -/
def negByte (b : Byte) : Byte := toUChar (255 - (b.val : Int))

/-- Negate the byte at offset `p`, leaving the rest of the memory alone. -/
def negAt (p : Nat) (bytes : List Byte) : List Byte :=
  bytes.set p (negByte (bytes.getD p 0))

/-- Negate the bytes at the offsets of `ps`, one after the other. -/
def negAll (ps : List Nat) (bytes : List Byte) : List Byte :=
  ps.foldl (fun b p => negAt p b) bytes

/-- A memory transformer `f` has trace `l` when, on every image, it appends
`l` to the log and negates the bytes at the logged offsets. -/
def Traced (f : Image → Image) (l : List Entry) : Prop :=
  ∀ image, f image = { bytes := negAll (positionsOf l) image.bytes, log := image.log ++ l }

/-! ## Logs of the loop bodies and of the kernels -/

/-- The log of one execution of the pixel body. -/
def pixelLog (tid width y x : Nat) : List Entry :=
  [⟨tid, .byte (uadd (umul (uadd (umul y width) x) 3) 0)⟩,
   ⟨tid, .byte (uadd (umul (uadd (umul y width) x) 3) 1)⟩,
   ⟨tid, .byte (uadd (umul (uadd (umul y width) x) 3) 2)⟩]

/-- The log of the sequential kernel. -/
def negateImage_log (width height : Nat) : List Entry :=
  (List.range height).flatMap (fun y => (List.range width).flatMap (fun x => pixelLog 0 width y x))

/-- The log of the OpenMP kernel along a schedule. -/
def negateImageOMP_log (width : Nat) (sched : List (Nat × (Nat × Nat))) : List Entry :=
  sched.flatMap (fun s => pixelLog s.1 width s.2.1 s.2.2)

/-- The lane accesses of a row segment: `n` lanes starting at offset `row`. -/
def laneEntries (tid row n : Nat) : List Entry :=
  (List.range n).map (fun j => ⟨tid, .lane (row + 16 * j)⟩)

/-- The scalar accesses of a row segment: `n` bytes starting at offset `row`. -/
def byteEntries (tid row n : Nat) : List Entry :=
  (List.range n).map (fun j => ⟨tid, .byte (row + j)⟩)

/-- The log of one execution of the row body of the vectorised kernels:
the lanes, then the scalar remainder. -/
def rowLog (tid width y : Nat) : List Entry :=
  laneEntries tid (umul (umul y width) 3) (umul width 3 / 16)
    ++ byteEntries tid (umul (umul y width) 3 + 16 * (umul width 3 / 16)) (umul width 3 % 16)

/-- The log of the vectorised kernel. -/
def vectorisationNegateFilter_log (width height : Nat) : List Entry :=
  (List.range height).flatMap (fun y => rowLog 0 width y)

/-- The log of the OpenMP vectorised kernel along a schedule. -/
def OpenMPVectorisationNnegateFilter_log (width : Nat) (sched : List (Nat × Nat)) :
    List Entry :=
  sched.flatMap (fun s => rowLog s.1 width s.2)

/-! ## Further sample codecs -/

/-- A codec that decodes the 6 x 2 sample image (18 bytes per row) into a
buffer at the 16-aligned address 4096 and whose encode step succeeds. -/
def rampCodec : Codec :=
  { lodepng_decode24_file := fun _ =>
      { error := 0, image := (rampImage 36).bytes, width := 6, height := 2, base := 4096 }
    lodepng_encode24_file := fun _ _ _ _ => 0
    lodepng_error_text := fun _ => "no error" }

/-- The function `userConsistentNegativeFilter` (lines 165-173). -/
def userConsistentNegativeFilter (lib : Codec) : List Event :=
  let inputFilename := "input.png"
  let outputFilename := "outputNegative.png"
  negateImage lib inputFilename outputFilename

/-- The function `userOMPNegativeFilter` (lines 177-185). -/
def userOMPNegativeFilter (sched : Nat → Nat → List (Nat × (Nat × Nat))) (lib : Codec) :
    List Event :=
  let inputFilename := "input.png"
  let outputFilename := "outputNegativeOMP.png"
  negateImageOMP sched lib inputFilename outputFilename

/-- The function `userVectorizationNegativeFilter` (lines 189-197). -/
def userVectorizationNegativeFilter (lib : Codec) : List Event :=
  let inputFilename := "input.png"
  let outputFilename := "outputNegativeVect.png"
  vectorisationNegateFilter lib inputFilename outputFilename

/-- The function `userOMPVectorizationNegativeFilter` (lines 201-209). -/
def userOMPVectorizationNegativeFilter (sched : Nat → List (Nat × Nat)) (lib : Codec) :
    List Event :=
  let inputFilename := "input.png"
  let outputFilename := "outputNegativeOpenMPVect.png"
  OpenMPVectorisationNnegateFilter sched lib inputFilename outputFilename

/-- The names of the functions the file defines, in the order of their
definitions (lines 20, 51, 83, 123, 165, 177, 189, 201, 212). -/
def definedFunctions : List String :=
  ["negateImage", "negateImageOMP", "vectorisationNegateFilter",
   "OpenMPVectorisationNnegateFilter", "userConsistentNegativeFilter",
   "userOMPNegativeFilter", "userVectorizationNegativeFilter",
   "userOMPVectorizationNegativeFilter", "main"]

/-- A call `name()` without arguments, resolved against the functions of the
file that take no argument; `none` when the file defines no such function.
`pixels` and `rows` are the schedules the OpenMP runtime follows. -/
def callByName (pixels : Nat → Nat → List (Nat × (Nat × Nat))) (rows : Nat → List (Nat × Nat))
    (lib : Codec) (name : String) : Option (List Event) :=
  if name = "userConsistentNegativeFilter" then some (userConsistentNegativeFilter lib)
  else if name = "userOMPNegativeFilter" then some (userOMPNegativeFilter pixels lib)
  else if name = "userVectorizationNegativeFilter" then
    some (userVectorizationNegativeFilter lib)
  else if name = "userOMPVectorizationNegativeFilter" then
    some (userOMPVectorizationNegativeFilter rows lib)
  else none

/-- The identifiers `main` calls, in order (lines 215, 219, 223 and 227). -/
def mainCalls : List String :=
  ["userConsistentNegativeFilter", "userOMPNegativeFilter",
   "userVectorizationNegativeFilter", "userOMPVectorizationFilters"]

/-- The function `main` (lines 212-230): the four calls in order, each
resolved by name; the result is `none` when a call names no function. -/
def main (pixels : Nat → Nat → List (Nat × (Nat × Nat))) (rows : Nat → List (Nat × Nat))
    (lib : Codec) : Option (List Event) :=
  mainCalls.foldl
    (fun acc name =>
      match acc, callByName pixels rows lib name with
      | some done, some events => some (done ++ events)
      | _, _ => none)
    (some [])

/-! ## Lanes as 128-bit integers -/

/-- The unsigned integer that a list of bytes represents, least significant
byte first; for 16 bytes this is the value of the `__m128i`. -/
def laneValue : List Byte → Nat
  | [] => 0
  | b :: bs => b.val + 256 * laneValue bs

/-- One 128-bit subtraction `a - b` modulo `2^128` on the integers that the
two lanes represent. -/
def wideSubtract (a b : List Byte) : Int :=
  ((laneValue a : Int) - (laneValue b : Int)) % 2 ^ 128

/-! ## Basic facts -/

theorem negByte_val (b : Byte) : (negByte b).val = 255 - b.val := by
  have hb := b.isLt
  simp only [negByte, toUChar]
  omega

theorem negByte_negByte (b : Byte) : negByte (negByte b) = b := by
  apply Fin.ext
  rw [negByte_val, negByte_val]
  have hb := b.isLt
  omega

theorem negByte_involutive : Function.Involutive negByte := negByte_negByte

theorem negAt_length (p : Nat) (bytes : List Byte) : (negAt p bytes).length = bytes.length := by
  simp [negAt]

theorem negAt_getElem? (p i : Nat) (bytes : List Byte) :
    (negAt p bytes)[i]? = if i = p then (bytes[i]?).map negByte else bytes[i]? := by
  unfold negAt
  rw [List.getElem?_set]
  by_cases h : p = i
  · subst h
    by_cases hl : p < bytes.length
    · simp [hl, List.getD_eq_getElem?_getD]
    · have : bytes[p]? = none := by simp; omega
      simp [hl, this]
  · have h2 : ¬ i = p := fun e => h e.symm
    simp [h, h2]

theorem negAll_nil (bytes : List Byte) : negAll [] bytes = bytes := rfl

theorem negAll_cons (p : Nat) (ps : List Nat) (bytes : List Byte) :
    negAll (p :: ps) bytes = negAll ps (negAt p bytes) := rfl

theorem negAll_append (ps qs : List Nat) (bytes : List Byte) :
    negAll (ps ++ qs) bytes = negAll qs (negAll ps bytes) := by
  simp [negAll, List.foldl_append]

theorem negAll_length (ps : List Nat) (bytes : List Byte) :
    (negAll ps bytes).length = bytes.length := by
  induction ps generalizing bytes with
  | nil => rfl
  | cons p ps ih => rw [negAll_cons, ih, negAt_length]

/-- Pointwise description of `negAll`: the byte at offset `i` is negated once
for every occurrence of `i` among the offsets. -/
theorem negAll_getElem? (ps : List Nat) (i : Nat) (bytes : List Byte) :
    (negAll ps bytes)[i]? = (bytes[i]?).map (negByte^[ps.count i]) := by
  induction ps generalizing bytes with
  | nil => simp [negAll_nil]
  | cons p ps ih =>
    rw [negAll_cons, ih, negAt_getElem?, List.count_cons]
    by_cases h : i = p
    · subst h
      simp [Function.iterate_succ, Option.map_map]
    · have h2 : ¬ p = i := fun e => h e.symm
      simp [h, h2]

theorem negAll_of_nodup (ps : List Nat) (hps : ps.Nodup) (i : Nat) (bytes : List Byte) :
    (negAll ps bytes)[i]? = if i ∈ ps then (bytes[i]?).map negByte else bytes[i]? := by
  rw [negAll_getElem?]
  by_cases h : i ∈ ps
  · rw [List.count_eq_one_of_mem hps h]
    simp [h]
  · rw [List.count_eq_zero.2 h]
    simp [h]

/-- Negating twice at the same offsets restores the memory. -/
theorem negAll_negAll (ps : List Nat) (bytes : List Byte) :
    negAll ps (negAll ps bytes) = bytes := by
  apply List.ext_getElem?
  intro i
  rw [negAll_getElem?, negAll_getElem?, Option.map_map, ← Function.iterate_add,
    negByte_involutive.iterate_even ⟨_, rfl⟩]
  simp

/-- The order of the offsets does not matter. -/
theorem negAll_perm {ps qs : List Nat} (h : ps.Perm qs) (bytes : List Byte) :
    negAll ps bytes = negAll qs bytes := by
  apply List.ext_getElem?
  intro i
  rw [negAll_getElem?, negAll_getElem?, h.count_eq]

/-- Negating at every offset of the buffer is the bytewise negation. -/
theorem negAll_range (bytes : List Byte) :
    negAll (List.range bytes.length) bytes = negated bytes := by
  apply List.ext_getElem?
  intro i
  rw [negAll_of_nodup _ (List.nodup_range _)]
  by_cases h : i < bytes.length
  · simp [negated, List.mem_range, h, negByte]
  · have h1 : bytes[i]? = none := by simp; omega
    simp [negated, List.mem_range, h, h1]

/-- Offsets that are not in the list keep their byte. -/
theorem negAll_frame (ps : List Nat) (i : Nat) (hi : i ∉ ps) (bytes : List Byte) :
    (negAll ps bytes)[i]? = bytes[i]? := by
  rw [negAll_getElem?, List.count_eq_zero.2 hi]
  simp

theorem positionsOf_nil : positionsOf [] = [] := rfl

theorem positionsOf_append (l m : List Entry) :
    positionsOf (l ++ m) = positionsOf l ++ positionsOf m := by
  simp [positionsOf]

theorem positionsOf_flatMap {α : Type} (l : List α) (f : α → List Entry) :
    positionsOf (l.flatMap f) = l.flatMap (fun a => positionsOf (f a)) := by
  simp [positionsOf, List.flatMap_assoc]

/-! ## Traces of the loop bodies and of the loops -/

theorem Traced.comp {f g : Image → Image} {l m : List Entry}
    (hf : Traced f l) (hg : Traced g m) : Traced (fun image => g (f image)) (l ++ m) := by
  intro image
  show g (f image) = _
  rw [hf image, hg, positionsOf_append, negAll_append, List.append_assoc]

theorem Traced.foldl {α : Type} (f : α → Image → Image) (t : α → List Entry)
    (h : ∀ a, Traced (f a) (t a)) (l : List α) :
    Traced (fun image => l.foldl (fun img a => f a img) image) (l.flatMap t) := by
  induction l with
  | nil => intro image; simp [positionsOf_nil, negAll_nil]
  | cons a l ih =>
    intro image
    have h1 := ih (f a image)
    simp only [List.foldl_cons, List.flatMap_cons] at h1 ⊢
    rw [h1, h a, positionsOf_append, negAll_append, List.append_assoc]

theorem negateByteAt_traced (tid i : Nat) :
    Traced (negateByteAt tid i) [⟨tid, .byte i⟩] := by
  intro image
  rfl

theorem negatePixel_traced (tid width y x : Nat) :
    Traced (negatePixel tid width y x) (pixelLog tid width y x) :=
  ((negateByteAt_traced tid _).comp (negateByteAt_traced tid _)).comp
    (negateByteAt_traced tid _)

theorem negateImage_loop_traced (width height : Nat) :
    Traced (negateImage_loop width height) (negateImage_log width height) := by
  have hrow : ∀ y, Traced (negateImage_row width y)
      ((List.range width).flatMap (fun x => pixelLog 0 width y x)) := fun y =>
    Traced.foldl (fun x img => negatePixel 0 width y x img) (fun x => pixelLog 0 width y x)
      (fun x => negatePixel_traced 0 width y x) (List.range width)
  exact Traced.foldl (fun y img => negateImage_row width y img)
    (fun y => (List.range width).flatMap (fun x => pixelLog 0 width y x)) hrow
    (List.range height)

theorem negateImageOMP_loop_traced (width : Nat) (sched : List (Nat × (Nat × Nat))) :
    Traced (negateImageOMP_loop width sched) (negateImageOMP_log width sched) := by
  have hbody : ∀ s : Nat × (Nat × Nat),
      Traced ((fun s img => negatePixel s.1 width s.2.1 s.2.2 img) s)
        ((fun s => pixelLog s.1 width s.2.1 s.2.2) s) := fun s =>
    negatePixel_traced s.1 width s.2.1 s.2.2
  have h := Traced.foldl (fun (s : Nat × (Nat × Nat)) img => negatePixel s.1 width s.2.1 s.2.2 img)
    (fun s => pixelLog s.1 width s.2.1 s.2.2) hbody sched
  intro image
  exact h image

/-! ## The lane operation -/

theorem sub_ones_load (bytes : List Byte) (row : Nat) :
    _mm_sub_epi8 ones (_mm_load_si128 bytes row)
      = (List.range 16).map (fun k => negByte (bytes.getD (row + k) 0)) := rfl

theorem foldl_set_length (g : Nat → Byte) (row : Nat) (ks : List Nat) (bytes : List Byte) :
    (ks.foldl (fun m k => m.set (row + k) (g k)) bytes).length = bytes.length := by
  induction ks generalizing bytes with
  | nil => rfl
  | cons k ks ih => simp [List.foldl_cons, ih]

theorem foldl_set_getElem? (g : Nat → Byte) (row i n : Nat) (bytes : List Byte) :
    ((List.range n).foldl (fun m k => m.set (row + k) (g k)) bytes)[i]?
      = if row ≤ i ∧ i < row + n then (bytes[i]?).map (fun _ => g (i - row)) else bytes[i]? := by
  induction n with
  | zero =>
    have h0 : ¬ (row ≤ i ∧ i < row + 0) := by omega
    rw [if_neg h0]
    rfl
  | succ n ih =>
    rw [List.range_succ, List.foldl_append, List.foldl_cons, List.foldl_nil,
      List.getElem?_set, foldl_set_length, ih]
    by_cases h1 : row + n = i
    · subst h1
      have h2 : ¬ (row ≤ row + n ∧ row + n < row + n) := by omega
      have h3 : row ≤ row + n ∧ row + n < row + (n + 1) := by omega
      by_cases hl : row + n < bytes.length
      · simp [hl, h3]
      · have h4 : bytes[row + n]? = none := by simp; omega
        simp [hl, h4]
    · by_cases h5 : row ≤ i ∧ i < row + n
      · have h6 : row ≤ i ∧ i < row + (n + 1) := by omega
        simp [h1, h5, h6]
      · have h6 : ¬ (row ≤ i ∧ i < row + (n + 1)) := by omega
        simp [h1, h5, h6]

theorem map_range_getD (g : Nat → Byte) (n k : Nat) (hk : k < n) :
    ((List.range n).map g).getD k 0 = g k := by
  simp [List.getD_eq_getElem?_getD, hk]

/-- The lane operation negates the 16 bytes at offsets `row .. row + 15`. -/
theorem lane_eq_negAll (bytes : List Byte) (row : Nat) :
    _mm_store_si128 bytes row (_mm_sub_epi8 ones (_mm_load_si128 bytes row))
      = negAll (List.range' row 16) bytes := by
  rw [sub_ones_load]
  unfold _mm_store_si128
  have hfun : (List.range 16).foldl (fun m k => m.set (row + k)
        (((List.range 16).map (fun k => negByte (bytes.getD (row + k) 0))).getD k 0)) bytes
      = (List.range 16).foldl (fun m k => m.set (row + k) (negByte (bytes.getD (row + k) 0)))
          bytes := by
    apply List.foldl_ext
    intro m k hk
    rw [map_range_getD _ _ _ (List.mem_range.1 hk)]
  rw [hfun]
  apply List.ext_getElem?
  intro i
  rw [foldl_set_getElem? (fun k => negByte (bytes.getD (row + k) 0)),
    negAll_of_nodup _ (List.nodup_range' row 16)]
  by_cases h : row ≤ i ∧ i < row + 16
  · have h1 : i ∈ List.range' row 16 := by simp; omega
    have h2 : row + (i - row) = i := by omega
    rw [if_pos h, if_pos h1, h2]
    cases hb : bytes[i]? <;> simp [List.getD_eq_getElem?_getD, hb]
  · have h1 : i ∉ List.range' row 16 := by simp; omega
    rw [if_neg h, if_neg h1]

theorem negateLaneAt_traced (tid row : Nat) :
    Traced (negateLaneAt tid row) [⟨tid, .lane row⟩] := by
  intro image
  unfold negateLaneAt
  simp only [lane_eq_negAll]
  simp [positionsOf, Access.positions]

/-! ## The two pointer loops of a row -/

theorem laneEntries_succ (tid row n : Nat) :
    laneEntries tid row (n + 1) = ⟨tid, .lane row⟩ :: laneEntries tid (row + 16) n := by
  simp only [laneEntries, List.range_succ_eq_map, List.map_cons, List.map_map]
  congr 1
  apply List.map_congr_left
  intro j _
  simp only [Function.comp, Nat.succ_eq_add_one]
  congr 2
  omega

theorem byteEntries_succ (tid row n : Nat) :
    byteEntries tid row (n + 1) = ⟨tid, .byte row⟩ :: byteEntries tid (row + 1) n := by
  simp only [byteEntries, List.range_succ_eq_map, List.map_cons, List.map_map]
  congr 1
  apply List.map_congr_left
  intro j _
  simp only [Function.comp, Nat.succ_eq_add_one]
  congr 2
  omega

/-- Closed form of the lane loop: it runs `min fuel ((end - row) / 16)`
iterations, one lane each. -/
theorem laneLoop_eq (tid fuel row end_ : Nat) (image : Image) :
    laneLoop tid fuel row end_ image
      = (row + 16 * min fuel ((end_ - row) / 16),
         { bytes := negAll (positionsOf (laneEntries tid row (min fuel ((end_ - row) / 16))))
             image.bytes
           log := image.log ++ laneEntries tid row (min fuel ((end_ - row) / 16)) }) := by
  induction fuel generalizing row image with
  | zero => simp [laneLoop, laneEntries, positionsOf, negAll]
  | succ fuel ih =>
    unfold laneLoop
    by_cases h : row + 15 < end_
    · have hk : min (fuel + 1) ((end_ - row) / 16)
          = min fuel ((end_ - (row + 16)) / 16) + 1 := by
        have : (end_ - row) / 16 = (end_ - (row + 16)) / 16 + 1 := by omega
        omega
      rw [if_pos h, ih, negateLaneAt_traced tid row image, hk, laneEntries_succ]
      simp only [Prod.mk.injEq]
      refine ⟨by omega, ?_⟩
      rw [← negAll_append, ← positionsOf_append]
      simp
    · have hk : min (fuel + 1) ((end_ - row) / 16) = 0 := by
        have : (end_ - row) / 16 = 0 := by omega
        omega
      rw [if_neg h, hk]
      simp [laneEntries, positionsOf, negAll]

/-- Closed form of the remainder loop: it runs `min fuel (end - row)`
iterations, one byte each. -/
theorem scalarLoop_eq (tid fuel row end_ : Nat) (image : Image) :
    scalarLoop tid fuel row end_ image
      = (row + min fuel (end_ - row),
         { bytes := negAll (positionsOf (byteEntries tid row (min fuel (end_ - row))))
             image.bytes
           log := image.log ++ byteEntries tid row (min fuel (end_ - row)) }) := by
  induction fuel generalizing row image with
  | zero => simp [scalarLoop, byteEntries, positionsOf, negAll]
  | succ fuel ih =>
    unfold scalarLoop
    by_cases h : row < end_
    · have hk : min (fuel + 1) (end_ - row) = min fuel (end_ - (row + 1)) + 1 := by omega
      rw [if_pos h, ih, negateByteAt_traced tid row image, hk, byteEntries_succ]
      simp only [Prod.mk.injEq]
      refine ⟨by omega, ?_⟩
      rw [← negAll_append, ← positionsOf_append]
      simp
    · have hk : min (fuel + 1) (end_ - row) = 0 := by omega
      rw [if_neg h, hk]
      simp [byteEntries, positionsOf, negAll]

/-- With fuel for the whole segment the lane loop ends because its condition
fails, not because the fuel runs out. -/
theorem laneLoop_exits (tid fuel row end_ : Nat) (image : Image) (hf : end_ - row ≤ fuel) :
    ¬ ((laneLoop tid fuel row end_ image).1 + 15 < end_) := by
  rw [laneLoop_eq]
  have h1 : min fuel ((end_ - row) / 16) = (end_ - row) / 16 := by
    have := Nat.div_le_self (end_ - row) 16
    omega
  simp only [h1]
  omega

/-- With fuel for the whole segment the remainder loop ends because its
condition fails, not because the fuel runs out. -/
theorem scalarLoop_exits (tid fuel row end_ : Nat) (image : Image) (hf : end_ - row ≤ fuel) :
    ¬ ((scalarLoop tid fuel row end_ image).1 < end_) := by
  rw [scalarLoop_eq]
  simp only
  omega

/-- In the row body both pointer loops get enough fuel: the lane loop stops
at the first offset with fewer than 16 bytes left and the remainder loop stops
at `end`. -/
theorem negateRow_loops_exit (tid width y : Nat) (image : Image) :
    ¬ ((laneLoop tid (umul width 3) (umul (umul y width) 3)
        (umul (umul y width) 3 + umul width 3) image).1 + 15
        < umul (umul y width) 3 + umul width 3) ∧
    (scalarLoop tid (umul width 3)
        (laneLoop tid (umul width 3) (umul (umul y width) 3)
          (umul (umul y width) 3 + umul width 3) image).1
        (umul (umul y width) 3 + umul width 3)
        (laneLoop tid (umul width 3) (umul (umul y width) 3)
          (umul (umul y width) 3 + umul width 3) image).2).1
      = umul (umul y width) 3 + umul width 3 := by
  refine ⟨laneLoop_exits _ _ _ _ _ (by omega), ?_⟩
  rw [scalarLoop_eq, laneLoop_eq]
  simp only
  have := Nat.div_add_mod (umul width 3) 16
  have := Nat.div_le_self (umul width 3) 16
  omega

theorem positionsOf_laneEntries (tid row n : Nat) :
    positionsOf (laneEntries tid row n) = List.range' row (16 * n) := by
  induction n generalizing row with
  | zero => rfl
  | succ n ih =>
    rw [laneEntries_succ]
    have h : positionsOf (⟨tid, .lane row⟩ :: laneEntries tid (row + 16) n)
        = List.range' row 16 ++ positionsOf (laneEntries tid (row + 16) n) := by
      simp [positionsOf, Access.positions]
    rw [h, ih, List.range'_append_1, Nat.mul_succ]

theorem positionsOf_byteEntries (tid row n : Nat) :
    positionsOf (byteEntries tid row n) = List.range' row n := by
  induction n generalizing row with
  | zero => rfl
  | succ n ih =>
    rw [byteEntries_succ]
    have h : positionsOf (⟨tid, .byte row⟩ :: byteEntries tid (row + 1) n)
        = row :: positionsOf (byteEntries tid (row + 1) n) := by
      simp [positionsOf, Access.positions]
    rw [h, ih, List.range'_succ]

theorem negateRow_traced (tid width y : Nat) :
    Traced (negateRow tid width y) (rowLog tid width y) := by
  intro image
  unfold negateRow rowLog
  simp only [laneLoop_eq, scalarLoop_eq]
  have h1 : min (umul width 3)
      ((umul (umul y width) 3 + umul width 3 - umul (umul y width) 3) / 16)
      = umul width 3 / 16 := by
    rw [Nat.add_sub_cancel_left]
    have := Nat.div_le_self (umul width 3) 16
    omega
  rw [h1]
  have h2 : min (umul width 3)
      (umul (umul y width) 3 + umul width 3
        - (umul (umul y width) 3 + 16 * (umul width 3 / 16)))
      = umul width 3 % 16 := by
    have := Nat.div_add_mod (umul width 3) 16
    omega
  rw [h2, positionsOf_append, negAll_append, List.append_assoc]

/-- The offsets touched by a row body are the row segment
`[index, index + length)`, in increasing order. -/
theorem positionsOf_rowLog (tid width y : Nat) :
    positionsOf (rowLog tid width y)
      = List.range' (umul (umul y width) 3) (umul width 3) := by
  unfold rowLog
  rw [positionsOf_append, positionsOf_laneEntries, positionsOf_byteEntries,
    List.range'_append_1]
  congr 1
  exact Nat.mod_add_div (umul width 3) 16

theorem vectorisationNegateFilter_loop_traced (width height : Nat) :
    Traced (vectorisationNegateFilter_loop width height)
      (vectorisationNegateFilter_log width height) :=
  Traced.foldl (fun y img => negateRow 0 width y img) (fun y => rowLog 0 width y)
    (fun y => negateRow_traced 0 width y) (List.range height)

theorem OpenMPVectorisationNnegateFilter_loop_traced (width : Nat) (sched : List (Nat × Nat)) :
    Traced (OpenMPVectorisationNnegateFilter_loop width sched)
      (OpenMPVectorisationNnegateFilter_log width sched) := by
  have hbody : ∀ s : Nat × Nat,
      Traced ((fun s img => negateRow s.1 width s.2 img) s)
        ((fun s => rowLog s.1 width s.2) s) := fun s => negateRow_traced s.1 width s.2
  have h := Traced.foldl (fun (s : Nat × Nat) img => negateRow s.1 width s.2 img)
    (fun s => rowLog s.1 width s.2) hbody sched
  intro image
  exact h image

/-! ## Index arithmetic without wrap-around -/

theorem pixel_index_lt {width height y x : Nat} (hy : y < height) (hx : x < width) :
    (y * width + x) * 3 + 3 ≤ width * height * 3 := by
  have h1 : (y + 1) * width ≤ height * width := Nat.mul_le_mul_right width hy
  have h2 : (y + 1) * width = y * width + width := by ring
  have h3 : width * height = height * width := Nat.mul_comm _ _
  omega

theorem row_index_le (width : Nat) {height y : Nat} (hy : y < height) :
    y * width * 3 + width * 3 ≤ width * height * 3 := by
  have h1 : (y + 1) * width ≤ height * width := Nat.mul_le_mul_right width hy
  have h2 : (y + 1) * width = y * width + width := by ring
  have h3 : width * height = height * width := Nat.mul_comm _ _
  omega

theorem pixelLog_positions {width height y x : Nat} (tid : Nat)
    (hb : width * height * 3 < 2 ^ 32) (hy : y < height) (hx : x < width) :
    positionsOf (pixelLog tid width y x) = List.range' ((y * width + x) * 3) 3 := by
  have h := pixel_index_lt hy hx
  have h0 : y * width ≤ y * width + x := Nat.le_add_right _ _
  have e1 : umul y width = y * width := Nat.mod_eq_of_lt (by omega)
  have e2 : uadd (y * width) x = y * width + x := Nat.mod_eq_of_lt (by omega)
  have e3 : umul (y * width + x) 3 = (y * width + x) * 3 := Nat.mod_eq_of_lt (by omega)
  have e4 : ∀ c, c < 3 → uadd ((y * width + x) * 3) c = (y * width + x) * 3 + c :=
    fun c hc => Nat.mod_eq_of_lt (by omega)
  simp only [pixelLog, e1, e2, e3, e4 0 (by omega), e4 1 (by omega), e4 2 (by omega)]
  rfl

theorem rowLog_positions {width height y : Nat} (tid : Nat)
    (hb : width * height * 3 < 2 ^ 32) (hy : y < height) :
    positionsOf (rowLog tid width y) = List.range' (y * (width * 3)) (width * 3) := by
  have h := row_index_le width hy
  have h0 : y * width ≤ y * width * 3 := Nat.le_mul_of_pos_right _ (by omega)
  have e1 : umul y width = y * width := Nat.mod_eq_of_lt (by omega)
  have e2 : umul (y * width) 3 = y * width * 3 := Nat.mod_eq_of_lt (by omega)
  have e3 : umul width 3 = width * 3 := Nat.mod_eq_of_lt (by omega)
  rw [positionsOf_rowLog, e1, e2, e3, Nat.mul_assoc]

/-- Consecutive blocks of `len` offsets, `n` of them from `a` on, make up
the interval of `n * len` offsets from `a` on. -/
theorem flatMap_range'_blocks (a len n : Nat) :
    (List.range n).flatMap (fun k => List.range' (a + k * len) len)
      = List.range' a (n * len) := by
  induction n with
  | zero => simp
  | succ n ih =>
    rw [List.range_succ, List.flatMap_append, ih, List.flatMap_singleton,
      List.range'_append_1]
    congr 1
    ring

/-! ## The offsets touched by the kernels -/

theorem positionsOf_pixelLog_tid (tid width y x : Nat) :
    positionsOf (pixelLog tid width y x) = positionsOf (pixelLog 0 width y x) := rfl

theorem positionsOf_rowLog_tid (tid width y : Nat) :
    positionsOf (rowLog tid width y) = positionsOf (rowLog 0 width y) := by
  rw [positionsOf_rowLog, positionsOf_rowLog]

/-- Without wrap-around the sequential kernel touches the offsets
`0, 1, ..., width*height*3 - 1`, each once, in this order. -/
theorem negateImage_log_positions {width height : Nat} (hb : width * height * 3 < 2 ^ 32) :
    positionsOf (negateImage_log width height) = List.range (width * height * 3) := by
  unfold negateImage_log
  rw [positionsOf_flatMap]
  have hrow : ∀ y ∈ List.range height,
      positionsOf ((List.range width).flatMap (fun x => pixelLog 0 width y x))
        = List.range' (0 + y * (width * 3)) (width * 3) := by
    intro y hy
    rw [positionsOf_flatMap]
    have hpix : ∀ x ∈ List.range width,
        positionsOf (pixelLog 0 width y x) = List.range' (y * (width * 3) + x * 3) 3 := by
      intro x hx
      rw [pixelLog_positions 0 hb (List.mem_range.1 hy) (List.mem_range.1 hx)]
      congr 1
      ring
    rw [List.flatMap_congr hpix, flatMap_range'_blocks, Nat.zero_add]
  rw [List.flatMap_congr hrow, flatMap_range'_blocks, List.range_eq_range']
  congr 1
  ring

/-- Without wrap-around the vectorised kernel touches the offsets
`0, 1, ..., width*height*3 - 1`, each once, in this order. -/
theorem vectorisationNegateFilter_log_positions {width height : Nat}
    (hb : width * height * 3 < 2 ^ 32) :
    positionsOf (vectorisationNegateFilter_log width height)
      = List.range (width * height * 3) := by
  unfold vectorisationNegateFilter_log
  rw [positionsOf_flatMap]
  have hrow : ∀ y ∈ List.range height,
      positionsOf (rowLog 0 width y) = List.range' (0 + y * (width * 3)) (width * 3) := by
    intro y hy
    rw [rowLog_positions 0 hb (List.mem_range.1 hy), Nat.zero_add]
  rw [List.flatMap_congr hrow, flatMap_range'_blocks, List.range_eq_range']
  congr 1
  ring

/-- Along every schedule the OpenMP kernel touches the same offsets as the
sequential kernel, up to the order. -/
theorem negateImageOMP_log_perm {width height : Nat} {sched : List (Nat × (Nat × Nat))}
    (hs : CollapsedSchedule width height sched) :
    (positionsOf (negateImageOMP_log width sched)).Perm
      (positionsOf (negateImage_log width height)) := by
  have h1 : positionsOf (negateImageOMP_log width sched)
      = (sched.map Prod.snd).flatMap (fun it => positionsOf (pixelLog 0 width it.1 it.2)) := by
    unfold negateImageOMP_log
    rw [positionsOf_flatMap, List.flatMap_map]
    rfl
  have h2 : positionsOf (negateImage_log width height)
      = (collapsedIterations width height).flatMap
          (fun it => positionsOf (pixelLog 0 width it.1 it.2)) := by
    unfold negateImage_log collapsedIterations
    rw [positionsOf_flatMap, List.flatMap_assoc]
    apply List.flatMap_congr
    intro y _
    rw [positionsOf_flatMap, List.flatMap_map]
  rw [h1, h2]
  exact List.Perm.flatMap_right _ hs

/-- Along every schedule the OpenMP vectorised kernel touches the same
offsets as the vectorised kernel, up to the order. -/
theorem OpenMPVectorisationNnegateFilter_log_perm {width height : Nat}
    {sched : List (Nat × Nat)} (hs : RowSchedule height sched) :
    (positionsOf (OpenMPVectorisationNnegateFilter_log width sched)).Perm
      (positionsOf (vectorisationNegateFilter_log width height)) := by
  have h1 : positionsOf (OpenMPVectorisationNnegateFilter_log width sched)
      = (sched.map Prod.snd).flatMap (fun y => positionsOf (rowLog 0 width y)) := by
    unfold OpenMPVectorisationNnegateFilter_log
    rw [positionsOf_flatMap, List.flatMap_map]
    apply List.flatMap_congr
    intro s _
    exact positionsOf_rowLog_tid s.1 width s.2
  have h2 : positionsOf (vectorisationNegateFilter_log width height)
      = (List.range height).flatMap (fun y => positionsOf (rowLog 0 width y)) := by
    unfold vectorisationNegateFilter_log
    rw [positionsOf_flatMap]
  rw [h1, h2]
  exact List.Perm.flatMap_right _ hs

/-- Every offset the pixel kernels compute is below `2^32`. -/
theorem pixelLog_positions_lt (tid width y x p : Nat)
    (hp : p ∈ positionsOf (pixelLog tid width y x)) : p < 2 ^ 32 := by
  have h : ∀ a b, uadd a b < 2 ^ 32 := fun a b => Nat.mod_lt _ (by decide)
  simp only [pixelLog, positionsOf, Access.positions, List.flatMap_cons, List.flatMap_nil,
    List.append_nil, List.singleton_append, List.mem_cons, List.mem_singleton] at hp
  rcases hp with hp | hp | hp | hp
  · rw [hp]; exact h _ _
  · rw [hp]; exact h _ _
  · rw [hp]; exact h _ _
  · simp at hp

theorem negateImage_log_positions_lt (width height p : Nat)
    (hp : p ∈ positionsOf (negateImage_log width height)) : p < 2 ^ 32 := by
  unfold negateImage_log at hp
  rw [positionsOf_flatMap] at hp
  obtain ⟨y, _, hp⟩ := List.mem_flatMap.1 hp
  rw [positionsOf_flatMap] at hp
  obtain ⟨x, _, hp⟩ := List.mem_flatMap.1 hp
  exact pixelLog_positions_lt 0 width y x p hp

theorem negated_length (bytes : List Byte) : (negated bytes).length = bytes.length := by
  simp [negated]

theorem negated_getD (bytes : List Byte) (i : Nat) (hi : i < bytes.length) :
    ((negated bytes).getD i 0).val = 255 - (bytes.getD i 0).val := by
  have h : (negated bytes).getD i 0 = negByte (bytes.getD i 0) := by
    simp [negated, negByte, List.getD_eq_getElem?_getD, hi]
  rw [h, negByte_val]

theorem negated_replicate (n : Nat) (b : Byte) :
    negated (List.replicate n b) = List.replicate n (negByte b) := by
  simp [negated, negByte]

theorem negateImage_loop_bytes {width height : Nat} (image : Image)
    (hb : width * height * 3 < 2 ^ 32) (hlen : image.bytes.length = width * height * 3) :
    (negateImage_loop width height image).bytes = negated image.bytes := by
  rw [negateImage_loop_traced width height image]
  show negAll (positionsOf (negateImage_log width height)) image.bytes = _
  rw [negateImage_log_positions hb, ← hlen, negAll_range]

theorem negateImageOMP_loop_bytes {width height : Nat} {sched : List (Nat × (Nat × Nat))}
    (image : Image) (hs : CollapsedSchedule width height sched) :
    (negateImageOMP_loop width sched image).bytes
      = (negateImage_loop width height image).bytes := by
  rw [negateImageOMP_loop_traced width sched image, negateImage_loop_traced width height image]
  exact negAll_perm (negateImageOMP_log_perm hs) image.bytes

/-- Offsets from `2^32` on are never written by the sequential kernel. -/
theorem negateImage_loop_frame (width height p : Nat) (image : Image) (hp : 2 ^ 32 ≤ p) :
    (negateImage_loop width height image).bytes[p]? = image.bytes[p]? := by
  rw [negateImage_loop_traced width height image]
  apply negAll_frame
  intro hmem
  have := negateImage_log_positions_lt width height p hmem
  omega

theorem replicate_getElem? (n p : Nat) (b : Byte) (hp : p < n) :
    (List.replicate n b)[p]? = some b := by
  rw [List.getElem?_replicate, if_pos hp]

/-! ## The kernels with the address check -/

theorem lanesAligned_cons (base : Nat) (e : Entry) (l : List Entry) :
    lanesAligned base (e :: l) = (laneValid base e.acc && lanesAligned base l) := rfl

theorem lanesAligned_append (base : Nat) (l m : List Entry) :
    lanesAligned base (l ++ m) = (lanesAligned base l && lanesAligned base m) := by
  simp [lanesAligned, List.all_append]

theorem lanesAligned_byteEntries (base tid row n : Nat) :
    lanesAligned base (byteEntries tid row n) = true := by
  simp [lanesAligned, byteEntries, laneValid]

theorem lanesAligned_flatMap {α : Type} (base : Nat) (l : List α) (t : α → List Entry) :
    lanesAligned base (l.flatMap t) = l.all (fun a => lanesAligned base (t a)) := by
  induction l with
  | nil => rfl
  | cons a l ih => rw [List.flatMap_cons, lanesAligned_append, ih, List.all_cons]

theorem lanesAligned_laneEntries (base tid row n : Nat) :
    lanesAligned base (laneEntries tid row n) = true
      ↔ ∀ k, k < n → (base + row + 16 * k) % 16 = 0 := by
  simp [lanesAligned, laneEntries, laneValid, Nat.add_assoc]

theorem lanesAligned_rowLog (base tid width y : Nat) :
    lanesAligned base (rowLog tid width y)
      = lanesAligned base (laneEntries tid (umul (umul y width) 3) (umul width 3 / 16)) := by
  unfold rowLog
  rw [lanesAligned_append, lanesAligned_byteEntries, Bool.and_true]

/-- With every lane of the segment valid the lane loop completes and does
what the loop without the check does. -/
theorem laneLoop_run_done (base tid fuel row end_ : Nat) (image : Image)
    (h : lanesAligned base (laneEntries tid row (min fuel ((end_ - row) / 16))) = true) :
    laneLoop_run base tid fuel row end_ image = .done (laneLoop tid fuel row end_ image) := by
  induction fuel generalizing row image with
  | zero => rfl
  | succ fuel ih =>
    unfold laneLoop_run laneLoop
    by_cases hc : row + 15 < end_
    · have hk : min (fuel + 1) ((end_ - row) / 16)
          = min fuel ((end_ - (row + 16)) / 16) + 1 := by
        have : (end_ - row) / 16 = (end_ - (row + 16)) / 16 + 1 := by omega
        omega
      rw [hk, laneEntries_succ, lanesAligned_cons, Bool.and_eq_true] at h
      rw [if_pos hc, if_pos hc]
      unfold negateLaneAt_run
      rw [if_pos h.1]
      exact ih (row + 16) (negateLaneAt tid row image) h.2
    · rw [if_neg hc, if_neg hc]

/-- With an invalid lane in the segment the lane loop is stopped by a fault. -/
theorem laneLoop_run_fault (base tid fuel row end_ : Nat) (image : Image)
    (h : lanesAligned base (laneEntries tid row (min fuel ((end_ - row) / 16))) = false) :
    ∃ im, laneLoop_run base tid fuel row end_ image = .fault im := by
  induction fuel generalizing row image with
  | zero => simp [laneEntries, lanesAligned] at h
  | succ fuel ih =>
    unfold laneLoop_run
    by_cases hc : row + 15 < end_
    · have hk : min (fuel + 1) ((end_ - row) / 16)
          = min fuel ((end_ - (row + 16)) / 16) + 1 := by
        have : (end_ - row) / 16 = (end_ - (row + 16)) / 16 + 1 := by omega
        omega
      rw [hk, laneEntries_succ, lanesAligned_cons, Bool.and_eq_false_iff] at h
      rw [if_pos hc]
      unfold negateLaneAt_run
      by_cases hv : laneValid base (.lane row) = true
      · rw [if_pos hv]
        rcases h with h | h
        · rw [hv] at h
          exact absurd h (by decide)
        · exact ih (row + 16) (negateLaneAt tid row image) h
      · rw [if_neg hv]
        exact ⟨image, rfl⟩
    · have hk : min (fuel + 1) ((end_ - row) / 16) = 0 := by
        have : (end_ - row) / 16 = 0 := by omega
        omega
      rw [hk] at h
      simp [laneEntries, lanesAligned] at h

theorem row_lane_count (width y : Nat) :
    min (umul width 3)
      ((umul (umul y width) 3 + umul width 3 - umul (umul y width) 3) / 16)
      = umul width 3 / 16 := by
  rw [Nat.add_sub_cancel_left]
  have := Nat.div_le_self (umul width 3) 16
  omega

/-- With every lane of the row valid the row body completes and does what the
body without the check does. -/
theorem negateRow_run_done (base tid width y : Nat) (image : Image)
    (h : lanesAligned base (rowLog tid width y) = true) :
    negateRow_run base tid width y image = .done (negateRow tid width y image) := by
  rw [lanesAligned_rowLog, ← row_lane_count width y] at h
  unfold negateRow_run negateRow
  simp only [laneLoop_run_done base tid _ _ _ image h]
  rfl

/-- With an invalid lane in the row the row body is stopped by a fault. -/
theorem negateRow_run_fault (base tid width y : Nat) (image : Image)
    (h : lanesAligned base (rowLog tid width y) = false) :
    ∃ im, negateRow_run base tid width y image = .fault im := by
  rw [lanesAligned_rowLog, ← row_lane_count width y] at h
  obtain ⟨im, him⟩ := laneLoop_run_fault base tid _ _ _ image h
  refine ⟨im, ?_⟩
  unfold negateRow_run
  simp only [him]
  rfl

theorem foldl_andThen_fault {α : Type} (g : α → Image → Outcome Image) (l : List α)
    (im : Image) :
    l.foldl (fun (acc : Outcome Image) a => acc.andThen (fun img => g a img))
      (Outcome.fault im) = Outcome.fault im := by
  induction l with
  | nil => rfl
  | cons a l ih => exact ih

/-- A loop of checked steps completes when every step does. -/
theorem foldl_run_done {α : Type} (f : α → Image → Image) (g : α → Image → Outcome Image)
    (l : List α) (hfg : ∀ a ∈ l, ∀ img, g a img = .done (f a img)) (image : Image) :
    l.foldl (fun (acc : Outcome Image) a => acc.andThen (fun img => g a img))
      (Outcome.done image) = Outcome.done (l.foldl (fun img a => f a img) image) := by
  induction l generalizing image with
  | nil => rfl
  | cons a l ih =>
    have h1 : (Outcome.done image).andThen (fun img => g a img) = .done (f a image) :=
      hfg a (List.mem_cons_self a l) image
    simp only [List.foldl_cons, h1]
    exact ih (fun b hb img => hfg b (List.mem_cons_of_mem a hb) img) (f a image)

/-- A loop of checked steps is stopped by a fault when one of its steps
always faults. -/
theorem foldl_run_fault {α : Type} (g : α → Image → Outcome Image) (l : List α) (a0 : α)
    (ha : a0 ∈ l) (hq : ∀ img, ∃ im, g a0 img = .fault im) (start : Outcome Image) :
    ∃ im, l.foldl (fun (acc : Outcome Image) a => acc.andThen (fun img => g a img)) start
      = Outcome.fault im := by
  induction l generalizing start with
  | nil => simp at ha
  | cons a l ih =>
    simp only [List.foldl_cons]
    rcases List.mem_cons.1 ha with h | h
    · subst h
      cases start with
      | fault im => exact ⟨im, foldl_andThen_fault g l im⟩
      | done img =>
        obtain ⟨im, him⟩ := hq img
        have h1 : (Outcome.done img).andThen (fun i => g a0 i) = .fault im := him
        rw [h1]
        exact ⟨im, foldl_andThen_fault g l im⟩
    · exact ih h _

theorem vectorisationNegateFilter_run_done (base width height : Nat) (image : Image)
    (h : lanesAligned base (vectorisationNegateFilter_log width height) = true) :
    vectorisationNegateFilter_run base width height image
      = .done (vectorisationNegateFilter_loop width height image) := by
  unfold vectorisationNegateFilter_log at h
  rw [lanesAligned_flatMap, List.all_eq_true] at h
  exact foldl_run_done (fun y img => negateRow 0 width y img)
    (fun y img => negateRow_run base 0 width y img) (List.range height)
    (fun y hy img => negateRow_run_done base 0 width y img (h y hy)) image

theorem vectorisationNegateFilter_run_fault (base width height : Nat) (image : Image)
    (h : lanesAligned base (vectorisationNegateFilter_log width height) = false) :
    ∃ im, vectorisationNegateFilter_run base width height image = .fault im := by
  unfold vectorisationNegateFilter_log at h
  rw [lanesAligned_flatMap, List.all_eq_false] at h
  obtain ⟨y, hy, hf⟩ := h
  have hf2 : lanesAligned base (rowLog 0 width y) = false := by simpa using hf
  exact foldl_run_fault (fun y img => negateRow_run base 0 width y img) (List.range height) y hy
    (fun img => negateRow_run_fault base 0 width y img hf2) (.done image)

theorem OpenMPVectorisationNnegateFilter_run_fault (base width : Nat)
    (sched : List (Nat × Nat)) (image : Image)
    (h : lanesAligned base (OpenMPVectorisationNnegateFilter_log width sched) = false) :
    ∃ im, OpenMPVectorisationNnegateFilter_run base width sched image = .fault im := by
  unfold OpenMPVectorisationNnegateFilter_log at h
  rw [lanesAligned_flatMap, List.all_eq_false] at h
  obtain ⟨s, hs, hf⟩ := h
  have hf2 : lanesAligned base (rowLog s.1 width s.2) = false := by simpa using hf
  exact foldl_run_fault (fun (s : Nat × Nat) img => negateRow_run base s.1 width s.2 img)
    sched s hs (fun img => negateRow_run_fault base s.1 width s.2 img hf2) (.done image)

/-! ## The accesses of a faulting run are a prefix of the attempted accesses -/

theorem laneLoop_run_prefix (base tid fuel row end_ : Nat) (image : Image) :
    laneLoop_run base tid fuel row end_ image = .done (laneLoop tid fuel row end_ image)
      ∨ ∃ im rest, laneLoop_run base tid fuel row end_ image = .fault im
          ∧ (laneLoop tid fuel row end_ image).2.log = im.log ++ rest := by
  induction fuel generalizing row image with
  | zero => exact Or.inl rfl
  | succ fuel ih =>
    by_cases hc : row + 15 < end_
    · by_cases hv : laneValid base (.lane row) = true
      · have e1 : laneLoop_run base tid (fuel + 1) row end_ image
            = laneLoop_run base tid fuel (row + 16) end_ (negateLaneAt tid row image) := by
          simp only [laneLoop_run, if_pos hc, negateLaneAt_run, if_pos hv, Outcome.andThen]
        have e2 : laneLoop tid (fuel + 1) row end_ image
            = laneLoop tid fuel (row + 16) end_ (negateLaneAt tid row image) := by
          simp only [laneLoop, if_pos hc]
        rw [e1, e2]
        exact ih (row + 16) (negateLaneAt tid row image)
      · right
        refine ⟨image, laneEntries tid row (min (fuel + 1) ((end_ - row) / 16)), ?_, ?_⟩
        · simp only [laneLoop_run, if_pos hc, negateLaneAt_run, if_neg hv, Outcome.andThen]
        · rw [laneLoop_eq]
    · left
      simp only [laneLoop_run, laneLoop, if_neg hc]

theorem negateRow_run_prefix (base tid width y : Nat) (image : Image) :
    negateRow_run base tid width y image = .done (negateRow tid width y image)
      ∨ ∃ im rest, negateRow_run base tid width y image = .fault im
          ∧ (negateRow tid width y image).log = im.log ++ rest := by
  rcases laneLoop_run_prefix base tid (umul width 3) (umul (umul y width) 3)
      (umul (umul y width) 3 + umul width 3) image with h | ⟨im, rest, h, hlog⟩
  · left
    simp only [negateRow_run, negateRow, h, Outcome.andThen]
  · right
    have hrest : ∃ rest2, (negateRow tid width y image).log = im.log ++ rest2 := by
      simp only [negateRow]
      rw [scalarLoop_eq]
      simp only [hlog, List.append_assoc]
      exact ⟨_, rfl⟩
    obtain ⟨rest2, h2⟩ := hrest
    exact ⟨im, rest2, by simp only [negateRow_run, h, Outcome.andThen], h2⟩

/-- A loop of checked steps either completes with the result of the loop
without the check, or is stopped with a log that the loop without the check
extends. -/
theorem foldl_run_prefix {α : Type} (f : α → Image → Image) (g : α → Image → Outcome Image)
    (t : α → List Entry) (hf : ∀ a, Traced (f a) (t a))
    (hg : ∀ a img, g a img = .done (f a img)
      ∨ ∃ im rest, g a img = .fault im ∧ (f a img).log = im.log ++ rest)
    (l : List α) (image : Image) :
    l.foldl (fun (acc : Outcome Image) a => acc.andThen (fun img => g a img))
        (Outcome.done image) = Outcome.done (l.foldl (fun img a => f a img) image)
      ∨ ∃ im rest,
          l.foldl (fun (acc : Outcome Image) a => acc.andThen (fun img => g a img))
            (Outcome.done image) = Outcome.fault im
          ∧ (l.foldl (fun img a => f a img) image).log = im.log ++ rest := by
  induction l generalizing image with
  | nil => exact Or.inl rfl
  | cons a l ih =>
    simp only [List.foldl_cons]
    rcases hg a image with h | ⟨im, rest, h, hlog⟩
    · have h1 : (Outcome.done image).andThen (fun img => g a img) = .done (f a image) := h
      rw [h1]
      exact ih (f a image)
    · right
      have h1 : (Outcome.done image).andThen (fun img => g a img) = .fault im := h
      rw [h1, foldl_andThen_fault]
      refine ⟨im, rest ++ l.flatMap t, rfl, ?_⟩
      have h2 := congrArg Image.log (Traced.foldl f t hf l (f a image))
      simp only at h2
      rw [h2, hlog, List.append_assoc]

/-- The vectorised kernel as executed either completes with the result of
`vectorisationNegateFilter_loop`, or is stopped with a log that is a prefix of
the log of `vectorisationNegateFilter_loop`. -/
theorem vectorisationNegateFilter_run_prefix (base width height : Nat) (image : Image) :
    vectorisationNegateFilter_run base width height image
        = .done (vectorisationNegateFilter_loop width height image)
      ∨ ∃ im rest, vectorisationNegateFilter_run base width height image = .fault im
          ∧ (vectorisationNegateFilter_loop width height image).log = im.log ++ rest :=
  foldl_run_prefix (fun y img => negateRow 0 width y img)
    (fun y img => negateRow_run base 0 width y img) (fun y => rowLog 0 width y)
    (fun y => negateRow_traced 0 width y)
    (fun y img => negateRow_run_prefix base 0 width y img) (List.range height) image

/-- The parallel vectorised kernel as executed along a schedule either
completes with the result of `OpenMPVectorisationNnegateFilter_loop`, or is
stopped with a log that is a prefix of the log of that loop. -/
theorem OpenMPVectorisationNnegateFilter_run_prefix (base width : Nat)
    (sched : List (Nat × Nat)) (image : Image) :
    OpenMPVectorisationNnegateFilter_run base width sched image
        = .done (OpenMPVectorisationNnegateFilter_loop width sched image)
      ∨ ∃ im rest, OpenMPVectorisationNnegateFilter_run base width sched image = .fault im
          ∧ (OpenMPVectorisationNnegateFilter_loop width sched image).log
              = im.log ++ rest :=
  foldl_run_prefix (fun (s : Nat × Nat) img => negateRow s.1 width s.2 img)
    (fun (s : Nat × Nat) img => negateRow_run base s.1 width s.2 img)
    (fun s => rowLog s.1 width s.2) (fun s => negateRow_traced s.1 width s.2)
    (fun s img => negateRow_run_prefix base s.1 width s.2 img) sched image

/-! ## C1: the sequential kernel -/

/-- C1 (as amended): when `width*height*3 < 2^32`, the loop nest of
`negateImage`, with its index computed in unsigned 32-bit arithmetic, leaves a
buffer of the same length in which every position `i < width*height*3` holds
`255 - b_i`, where `b_i` is the byte at `i` before the loop. -/
theorem negateImage_loop_negates (width height : Nat) (image : Image)
    (hb : width * height * 3 < 2 ^ 32) (hlen : image.bytes.length = width * height * 3) :
    (negateImage_loop width height image).bytes.length = width * height * 3 ∧
    ∀ i, i < width * height * 3 →
      ((negateImage_loop width height image).bytes.getD i 0).val
        = 255 - (image.bytes.getD i 0).val := by
  rw [negateImage_loop_bytes image hb hlen, negated_length]
  refine ⟨hlen, fun i hi => ?_⟩
  exact negated_getD image.bytes i (by omega)

theorem negateImage_loop_negates_witness :
    2 * 2 * 3 < 2 ^ 32 ∧ (rampImage 12).bytes.length = 2 * 2 * 3 ∧
    ((negateImage_loop 2 2 (rampImage 12)).bytes.length = 2 * 2 * 3 ∧
      ∀ i, i < 2 * 2 * 3 →
        ((negateImage_loop 2 2 (rampImage 12)).bytes.getD i 0).val
          = 255 - ((rampImage 12).bytes.getD i 0).val) :=
  ⟨by decide, by decide, negateImage_loop_negates 2 2 (rampImage 12) (by decide) (by decide)⟩

/-- C1 (counterexample): a 65536 x 65536 image has `3 * 2^32` bytes; the
32-bit index never reaches offset `2^32`, so the byte there is still `0`
after the loop, not `255`. -/
theorem negateImage_loop_wraps :
    (65536 : Nat) < 2 ^ 32 ∧ 2 ^ 32 < 65536 * 65536 * 3 ∧
    (Image.ofBytes (List.replicate (65536 * 65536 * 3) 0)).bytes.length = 65536 * 65536 * 3 ∧
    (Image.ofBytes (List.replicate (65536 * 65536 * 3) 0)).bytes[2 ^ 32]? = some 0 ∧
    (negateImage_loop 65536 65536
      (Image.ofBytes (List.replicate (65536 * 65536 * 3) 0))).bytes[2 ^ 32]? = some 0 := by
  have hlt : 2 ^ 32 < 65536 * 65536 * 3 := by norm_num
  refine ⟨by norm_num, hlt, List.length_replicate _ _, replicate_getElem? _ _ 0 hlt, ?_⟩
  rw [negateImage_loop_frame 65536 65536 (2 ^ 32) _ (Nat.le_refl _)]
  exact replicate_getElem? _ _ 0 hlt

/-! ## C2: the vectorised kernel against the sequential kernel -/

/-- Two lane accesses whose offsets differ modulo 16 cannot both be valid. -/
theorem lanesAligned_false_of_two (base : Nat) (l : List Entry) (e1 e2 : Entry) (p q : Nat)
    (h1 : e1 ∈ l) (h2 : e2 ∈ l) (a1 : e1.acc = .lane p) (a2 : e2.acc = .lane q)
    (hpq : p % 16 ≠ q % 16) : lanesAligned base l = false := by
  cases h : lanesAligned base l with
  | false => rfl
  | true =>
    unfold lanesAligned at h
    rw [List.all_eq_true] at h
    have v1 := h e1 h1
    have v2 := h e2 h2
    rw [a1] at v1
    rw [a2] at v2
    simp only [laneValid, beq_iff_eq] at v1 v2
    omega

theorem lanesAligned_rowLog_tid (base tid width y : Nat) :
    lanesAligned base (rowLog tid width y) = lanesAligned base (rowLog 0 width y) := by
  rw [lanesAligned_rowLog, lanesAligned_rowLog, Bool.eq_iff_iff, lanesAligned_laneEntries,
    lanesAligned_laneEntries]

/-- Whether the lanes are valid does not depend on the schedule. -/
theorem lanesAligned_schedule {width height : Nat} {sched : List (Nat × Nat)} (base : Nat)
    (hr : RowSchedule height sched) :
    lanesAligned base (OpenMPVectorisationNnegateFilter_log width sched)
      = lanesAligned base (vectorisationNegateFilter_log width height) := by
  unfold OpenMPVectorisationNnegateFilter_log vectorisationNegateFilter_log
  rw [lanesAligned_flatMap, lanesAligned_flatMap, Bool.eq_iff_iff, List.all_eq_true,
    List.all_eq_true]
  constructor
  · intro h y hy
    obtain ⟨s, hs, hsy⟩ := List.mem_map.1 ((List.Perm.mem_iff hr).2 hy)
    have := h s hs
    rw [lanesAligned_rowLog_tid, hsy] at this
    exact this
  · intro h s hs
    rw [lanesAligned_rowLog_tid]
    exact h s.2 ((List.Perm.mem_iff hr).1 (List.mem_map.2 ⟨s, hs, rfl⟩))

/-- A run that completes gives what the loop without the check gives. -/
theorem vectorisationNegateFilter_run_eq (base width height : Nat) (image out : Image)
    (h : vectorisationNegateFilter_run base width height image = .done out) :
    out = vectorisationNegateFilter_loop width height image
      ∧ lanesAligned base (vectorisationNegateFilter_log width height) = true := by
  cases ha : lanesAligned base (vectorisationNegateFilter_log width height) with
  | true =>
    rw [vectorisationNegateFilter_run_done base width height image ha] at h
    exact ⟨(Outcome.done.inj h).symm, rfl⟩
  | false =>
    obtain ⟨im, him⟩ := vectorisationNegateFilter_run_fault base width height image ha
    rw [him] at h
    exact absurd h (by simp)

/-- The lanes of a 7 x 2 image are at the offsets 0 and 21. -/
theorem lanes_7x2 (base : Nat) :
    lanesAligned base (vectorisationNegateFilter_log 7 2) = false :=
  lanesAligned_false_of_two base _ ⟨0, .lane 0⟩ ⟨0, .lane 21⟩ 0 21 (by decide) (by decide)
    rfl rfl (by decide)

/-- The lanes of a 6 x 2 image are at the offsets 0 and 18. -/
theorem lanes_6x2 (base : Nat) :
    lanesAligned base (vectorisationNegateFilter_log 6 2) = false :=
  lanesAligned_false_of_two base _ ⟨0, .lane 0⟩ ⟨0, .lane 18⟩ 0 18 (by decide) (by decide)
    rfl rfl (by decide)

/-- C2 (the code at a failing input): for the 7 x 2 sample image (21 bytes
per row) the row loop of `vectorisationNegateFilter` accesses lanes at the
offsets 0 and 21 with the aligned intrinsics, so for every address `base` of
the buffer one of the two accesses faults and the loop produces no buffer,
whereas the pixel loop of `negateImage` negates all 42 bytes. With the buffer
at the 16-aligned address 4096 the fault is at the lane of row 1, when only
the 21 bytes of row 0 have been negated. -/
theorem vectorisation_faults (base : Nat) :
    (∃ im, vectorisationNegateFilter_run base 7 2 (rampImage 42) = .fault im) ∧
    vectorisationNegateFilter_run 4096 7 2 (rampImage 42)
      = .fault (negateRow 0 7 0 (rampImage 42)) ∧
    positionsOf (negateRow 0 7 0 (rampImage 42)).log = List.range 21 ∧
    (negateImage_loop 7 2 (rampImage 42)).bytes = negated (rampImage 42).bytes :=
  ⟨vectorisationNegateFilter_run_fault base 7 2 (rampImage 42) (lanes_7x2 base),
    by decide, by decide,
    negateImage_loop_bytes (rampImage 42) (by decide) (by decide)⟩

/-! ## C3: the parallel kernels under every schedule -/

/-- C3 (the code at a failing input): for the 6 x 2 sample image (18 bytes
per row) the parallel row loop of `OpenMPVectorisationNnegateFilter` accesses
lanes at the offsets 0 and 18 with the aligned intrinsics. Whatever the
address `base` of the buffer, the workers `t0`, `t1` and the order of the two
rows, one of the two accesses faults and no buffer is produced, whereas the
sequential loop of `negateImage` negates all 36 bytes (and so does the loop of
`negateImageOMP`, here along a schedule with two workers). -/
theorem parallel_vectorised_faults (base t0 t1 : Nat) :
    (∃ im, OpenMPVectorisationNnegateFilter_run base 6 [(t0, 0), (t1, 1)] (rampImage 36)
      = .fault im) ∧
    (∃ im, OpenMPVectorisationNnegateFilter_run base 6 [(t1, 1), (t0, 0)] (rampImage 36)
      = .fault im) ∧
    OpenMPVectorisationNnegateFilter_run 4096 6 [(0, 0), (1, 1)] (rampImage 36)
      = .fault (negateRow 0 6 0 (rampImage 36)) ∧
    (negateImage_loop 6 2 (rampImage 36)).bytes = negated (rampImage 36).bytes ∧
    (negateImageOMP_loop 6 ((collapsedIterations 6 2).map (fun it => (it.2 % 2, it)))
      (rampImage 36)).bytes = negated (rampImage 36).bytes := by
  have hr1 : RowSchedule 2 [(t0, 0), (t1, 1)] := List.Perm.refl _
  have hr2 : RowSchedule 2 [(t1, 1), (t0, 0)] := List.Perm.swap 0 1 []
  have hseq := negateImage_loop_bytes (rampImage 36) (by decide : 6 * 2 * 3 < 2 ^ 32)
    (by decide)
  refine ⟨?_, ?_, by decide, hseq, ?_⟩
  · apply OpenMPVectorisationNnegateFilter_run_fault
    rw [lanesAligned_schedule base hr1]
    exact lanes_6x2 base
  · apply OpenMPVectorisationNnegateFilter_run_fault
    rw [lanesAligned_schedule base hr2]
    exact lanes_6x2 base
  · rw [← hseq]
    exact negateImageOMP_loop_bytes (rampImage 36) (by unfold CollapsedSchedule; decide)

/-! ## C4: involution -/

theorem Traced.twice {f g : Image → Image} {l m : List Entry}
    (hf : Traced f l) (hg : Traced g m) (hperm : (positionsOf l).Perm (positionsOf m))
    (image : Image) : (g (f image)).bytes = image.bytes := by
  rw [hg (f image), hf image]
  show negAll (positionsOf m) (negAll (positionsOf l) image.bytes) = image.bytes
  rw [negAll_perm hperm, negAll_negAll]

/-- C4 (the code at a failing input): for a 6 x 2 all-black image (18 bytes
per row) the first application of the vectorised kernel and of the parallel
vectorised kernel is stopped by the fault of an aligned lane access, for every
address `base` of the buffer, so these kernels do not return the buffer to
its original values; with the buffer at the 16-aligned address 4096 the
program stops with the 18 bytes of row 0 at 255 and the 18 bytes of row 1
still at 0. On the same image the sequential kernel applied twice gives back
the original bytes, and on the 2 x 2 all-black image of the claim it gives
all-255 and then all-0 again. -/
theorem involution_stopped_by_fault (base : Nat) :
    (∃ im, vectorisationNegateFilter_run base 6 2 (blackImage 6 2) = .fault im) ∧
    (∃ im, OpenMPVectorisationNnegateFilter_run base 6 [(0, 0), (1, 1)] (blackImage 6 2)
      = .fault im) ∧
    (vectorisationNegateFilter_run 4096 6 2 (blackImage 6 2)
        = .fault (negateRow 0 6 0 (blackImage 6 2)) ∧
      (negateRow 0 6 0 (blackImage 6 2)).bytes
        = List.replicate 18 255 ++ List.replicate 18 0) ∧
    (negateImage_loop 6 2 (negateImage_loop 6 2 (blackImage 6 2))).bytes
      = (blackImage 6 2).bytes ∧
    ((negateImage_loop 2 2 (blackImage 2 2)).bytes = List.replicate 12 255 ∧
      (negateImage_loop 2 2 (negateImage_loop 2 2 (blackImage 2 2))).bytes
        = List.replicate 12 0) := by
  have hr : RowSchedule 2 [(0, 0), (1, 1)] := List.Perm.refl _
  refine ⟨vectorisationNegateFilter_run_fault base 6 2 _ (lanes_6x2 base), ?_,
    ⟨by decide, by decide⟩, ?_, ⟨by decide, by decide⟩⟩
  · apply OpenMPVectorisationNnegateFilter_run_fault
    rw [lanesAligned_schedule base hr]
    exact lanes_6x2 base
  · exact Traced.twice (negateImage_loop_traced 6 2) (negateImage_loop_traced 6 2)
      (List.Perm.refl _) (blackImage 6 2)

/-! ## C5: full coverage, exactly once -/

theorem Traced.log_ofBytes {f : Image → Image} {l : List Entry} (hf : Traced f l)
    (bytes : List Byte) : (f (Image.ofBytes bytes)).log = l := by
  rw [hf (Image.ofBytes bytes)]
  show ([] : List Entry) ++ l = l
  rw [List.nil_append]

theorem Traced.length_bytes {f : Image → Image} {l : List Entry} (hf : Traced f l)
    (image : Image) : (f image).bytes.length = image.bytes.length := by
  rw [hf image]
  exact negAll_length _ _

/-- The index map `(y, x, c) ↦ (y*width + x)*3 + c` reaches every offset below
`width*height*3` from exactly one triple in `[0,height) x [0,width) x [0,3)`. -/
theorem pixel_index_bijective (width height p : Nat) (hp : p < width * height * 3) :
    ∃! t : Nat × Nat × Nat,
      t.1 < height ∧ t.2.1 < width ∧ t.2.2 < 3 ∧ (t.1 * width + t.2.1) * 3 + t.2.2 = p := by
  have hw : 0 < width := by
    rcases Nat.eq_zero_or_pos width with h | h
    · rw [h] at hp; simp at hp
    · exact h
  have hq : p / 3 < width * height := by omega
  refine ⟨(p / 3 / width, p / 3 % width, p % 3), ⟨?_, ?_, ?_, ?_⟩, ?_⟩
  · show p / 3 / width < height
    rw [Nat.div_lt_iff_lt_mul hw, Nat.mul_comm]
    exact hq
  · exact Nat.mod_lt _ hw
  · exact Nat.mod_lt _ (by decide)
  · show (p / 3 / width * width + p / 3 % width) * 3 + p % 3 = p
    have h1 : p / 3 / width * width + p / 3 % width = p / 3 := Nat.div_add_mod' _ _
    rw [h1]
    omega
  · rintro ⟨y, x, c⟩ ⟨_, hx, hc, he⟩
    simp only at hx hc he
    have h1 : p / 3 = y * width + x := by omega
    have h2 : p % 3 = c := by omega
    have h3 : (y * width + x) / width = y := by
      rw [Nat.add_comm, Nat.add_mul_div_right _ _ hw, Nat.div_eq_of_lt hx, Nat.zero_add]
    have h4 : (y * width + x) % width = x := by
      rw [Nat.add_comm, Nat.add_mul_mod_self_right, Nat.mod_eq_of_lt hx]
    rw [h1, h2, h3, h4]

/-- C5 (the code at a failing input): for the 6 x 2 sample image (36 bytes,
18 per row) the vectorised kernels do not write every offset in `[0, 36)`: for
every address `base` of the buffer an aligned lane access faults. With the
buffer at the 16-aligned address 4096 the vectorised kernel stops at the lane
of row 1, having accessed exactly the offsets `0, ..., 17`; on an all-0 buffer
it leaves the bytes of row 1 at 0 instead of 255. The pixel loop of
`negateImage` accesses `0, ..., 35`, each once, and keeps the length. -/
theorem coverage_stopped_by_fault (base : Nat) :
    (∃ im, vectorisationNegateFilter_run base 6 2 (rampImage 36) = .fault im) ∧
    (∃ im, OpenMPVectorisationNnegateFilter_run base 6 [(1, 1), (0, 0)] (rampImage 36)
      = .fault im) ∧
    (vectorisationNegateFilter_run 4096 6 2 (rampImage 36)
        = .fault (negateRow 0 6 0 (rampImage 36)) ∧
      positionsOf (negateRow 0 6 0 (rampImage 36)).log = List.range 18) ∧
    (vectorisationNegateFilter_run 4096 6 2 (blackImage 6 2)
        = .fault (negateRow 0 6 0 (blackImage 6 2)) ∧
      (negateRow 0 6 0 (blackImage 6 2)).bytes
        = List.replicate 18 255 ++ List.replicate 18 0) ∧
    (positionsOf (negateImage_loop 6 2 (rampImage 36)).log = List.range 36 ∧
      (negateImage_loop 6 2 (rampImage 36)).bytes.length = (rampImage 36).bytes.length) := by
  have hr : RowSchedule 2 [(1, 1), (0, 0)] := List.Perm.swap 0 1 []
  refine ⟨vectorisationNegateFilter_run_fault base 6 2 _ (lanes_6x2 base), ?_,
    ⟨by decide, by decide⟩, ⟨by decide, by decide⟩, ⟨by decide, by decide⟩⟩
  apply OpenMPVectorisationNnegateFilter_run_fault
  rw [lanesAligned_schedule base hr]
  exact lanes_6x2 base

/-! ## C6: the scalar remainder of a row -/

theorem rowLog_eq {width height y : Nat} (tid : Nat)
    (hb : width * height * 3 < 2 ^ 32) (hy : y < height) :
    rowLog tid width y
      = laneEntries tid (y * (3 * width)) (3 * width / 16)
        ++ byteEntries tid (y * (3 * width) + 16 * (3 * width / 16)) (3 * width % 16) := by
  have h := row_index_le width hy
  have h0 : y * width ≤ y * width * 3 := Nat.le_mul_of_pos_right _ (by omega)
  have e1 : umul y width = y * width := Nat.mod_eq_of_lt (by omega)
  have e2 : umul (y * width) 3 = y * (3 * width) := by
    have : y * width * 3 = y * (3 * width) := by ring
    rw [← this]
    exact Nat.mod_eq_of_lt (by omega)
  have e3 : umul width 3 = 3 * width := by
    rw [Nat.mul_comm 3 width]
    exact Nat.mod_eq_of_lt (by omega)
  unfold rowLog
  rw [e1, e2, e3]

/-- C7 (the code at a failing input): for a 6 x 2 image (18 bytes per row)
the vectorised kernels access the lanes at byte offsets 0 and 18 with the
aligned intrinsics; whatever the base address of the buffer, one of the two
lane addresses is not a multiple of 16. -/
theorem lanes_misaligned (base : Nat) :
    (vectorisationNegateFilter_loop 6 2 (blackImage 6 2)).log
      = [⟨0, .lane 0⟩, ⟨0, .byte 16⟩, ⟨0, .byte 17⟩, ⟨0, .lane 18⟩, ⟨0, .byte 34⟩,
         ⟨0, .byte 35⟩] ∧
    lanesAligned base (vectorisationNegateFilter_loop 6 2 (blackImage 6 2)).log = false ∧
    lanesAligned base
      (OpenMPVectorisationNnegateFilter_loop 6 [(0, 0), (1, 1)] (blackImage 6 2)).log
      = false := by
  have h1 : (vectorisationNegateFilter_loop 6 2 (blackImage 6 2)).log
      = [⟨0, .lane 0⟩, ⟨0, .byte 16⟩, ⟨0, .byte 17⟩, ⟨0, .lane 18⟩, ⟨0, .byte 34⟩,
         ⟨0, .byte 35⟩] := by decide
  have h2 : (OpenMPVectorisationNnegateFilter_loop 6 [(0, 0), (1, 1)] (blackImage 6 2)).log
      = [⟨0, .lane 0⟩, ⟨0, .byte 16⟩, ⟨0, .byte 17⟩, ⟨1, .lane 18⟩, ⟨1, .byte 34⟩,
         ⟨1, .byte 35⟩] := by decide
  rw [h1, h2]
  refine ⟨rfl, ?_, ?_⟩ <;>
  · simp only [lanesAligned, laneValid, List.all_cons, List.all_nil, Bool.and_true,
      Bool.true_and, Bool.and_eq_false_iff, beq_eq_false_iff_ne, ne_eq]
    omega

/-! ## C8: one writer per row, one writer per pixel -/

/-- Two blocks of the same length that share an offset are the same block. -/
theorem block_unique {a b len p : Nat} (ha : a * len ≤ p) (ha2 : p < a * len + len)
    (hb : b * len ≤ p) (hb2 : p < b * len + len) : a = b := by
  rcases Nat.lt_trichotomy a b with h | h | h
  · have h1 : (a + 1) * len ≤ b * len := Nat.mul_le_mul_right len h
    have h2 : (a + 1) * len = a * len + len := by ring
    omega
  · exact h
  · have h1 : (b + 1) * len ≤ a * len := Nat.mul_le_mul_right len h
    have h2 : (b + 1) * len = b * len + len := by ring
    omega

theorem pixel_unique {width y x y2 x2 : Nat} (hx : x < width) (hx2 : x2 < width)
    (he : y * width + x = y2 * width + x2) : y = y2 ∧ x = x2 := by
  have hw : 0 < width := by omega
  have h3 : ∀ a b, b < width → (a * width + b) / width = a := fun a b hb => by
    rw [Nat.add_comm, Nat.add_mul_div_right _ _ hw, Nat.div_eq_of_lt hb, Nat.zero_add]
  have hy : y = y2 := by
    have := congrArg (fun n => n / width) he
    simp only [h3 y x hx, h3 y2 x2 hx2] at this
    exact this
  subst hy
  exact ⟨rfl, by omega⟩

/-- C9: in each of the four pipeline functions, when the decode step returns
a non-zero error the function returns after the decode call and one message on
`cerr`: no negation access is performed, the encode step is not called, and
nothing else happens. -/
theorem decode_failure_abandons (lib : Codec) (inputFilename outputFilename : String)
    (pixels : Nat → Nat → List (Nat × (Nat × Nat))) (rows : Nat → List (Nat × Nat))
    (herr : (lib.lodepng_decode24_file inputFilename).error ≠ 0) :
    negateImage lib inputFilename outputFilename
      = [.decode inputFilename,
         .cerr ("Failed to load image: "
           ++ lib.lodepng_error_text (lib.lodepng_decode24_file inputFilename).error)] ∧
    negateImageOMP pixels lib inputFilename outputFilename
      = [.decode inputFilename,
         .cerr ("Failed to load image: "
           ++ lib.lodepng_error_text (lib.lodepng_decode24_file inputFilename).error)] ∧
    vectorisationNegateFilter lib inputFilename outputFilename
      = [.decode inputFilename,
         .cerr ("Failed to load image: "
           ++ lib.lodepng_error_text (lib.lodepng_decode24_file inputFilename).error)] ∧
    OpenMPVectorisationNnegateFilter rows lib inputFilename outputFilename
      = [.decode inputFilename,
         .cerr ("Failed to load image: "
           ++ lib.lodepng_error_text (lib.lodepng_decode24_file inputFilename).error)] := by
  refine ⟨?_, ?_, ?_, ?_⟩
  · unfold negateImage
    simp only [if_pos herr]
  · unfold negateImageOMP
    simp only [if_pos herr]
  · unfold vectorisationNegateFilter
    simp only [if_pos herr]
  · unfold OpenMPVectorisationNnegateFilter
    simp only [if_pos herr]

theorem decode_failure_abandons_witness :
    (missingInput.lodepng_decode24_file "input.png").error ≠ 0 ∧
    negateImage missingInput "input.png" "outputNegative.png"
      = [.decode "input.png", .cerr "Failed to load image: failed to open file for reading"] :=
  ⟨by decide,
    (decode_failure_abandons missingInput "input.png" "outputNegative.png"
      singleWorkerPixels singleWorkerRows (by decide)).1⟩

/-! ## C10: release of the buffer -/

/-- C10 (the code at a failing input): when decode succeeds and the encode
step returns an error, each of the four pipeline functions returns after the
message on `cerr` without calling `free`: the buffer is released zero
times. When the encode step succeeds, `free` is called once. -/
theorem buffer_not_freed_on_encode_error :
    (negateImage unwritableOutput "input.png" "outputNegative.png"
        = [.decode "input.png", .access ⟨0, .byte 0⟩, .access ⟨0, .byte 1⟩,
           .access ⟨0, .byte 2⟩, .encode "outputNegative.png" [255, 255, 255] 1 1,
           .cerr "Failed to save image: failed to open file for writing"] ∧
      (negateImage unwritableOutput "input.png" "outputNegative.png").count .free = 0 ∧
      (negateImageOMP singleWorkerPixels unwritableOutput "input.png"
        "outputNegativeOMP.png").count .free = 0 ∧
      (vectorisationNegateFilter unwritableOutput "input.png"
        "outputNegativeVect.png").count .free = 0 ∧
      (OpenMPVectorisationNnegateFilter singleWorkerRows unwritableOutput "input.png"
        "outputNegativeOpenMPVect.png").count .free = 0) ∧
    ((negateImage workingCodec "input.png" "outputNegative.png").count .free = 1 ∧
      (negateImageOMP singleWorkerPixels workingCodec "input.png"
        "outputNegativeOMP.png").count .free = 1 ∧
      (vectorisationNegateFilter workingCodec "input.png"
        "outputNegativeVect.png").count .free = 1 ∧
      (OpenMPVectorisationNnegateFilter singleWorkerRows workingCodec "input.png"
        "outputNegativeOpenMPVect.png").count .free = 1) := by
  refine ⟨⟨?_, ?_, ?_, ?_, ?_⟩, ?_, ?_, ?_, ?_⟩ <;> decide

/-! ## C11: the pipeline when decode succeeds -/

/-- When a lane access faults, `vectorisationNegateFilter` ends with the
accesses made before the fault: the encode step is not called. -/
theorem vectorisationNegateFilter_crash (lib : Codec)
    (inputFilename outputFilename : String)
    (d : Decoded) (hd : lib.lodepng_decode24_file inputFilename = d) (hok : d.error = 0)
    (image : Image)
    (hrun : vectorisationNegateFilter_run d.base d.width d.height (Image.ofBytes d.image)
      = .fault image) :
    vectorisationNegateFilter lib inputFilename outputFilename
      = [.decode inputFilename] ++ image.log.map .access ++ [.crash] := by
  subst hd
  unfold vectorisationNegateFilter
  simp only [hok, ne_eq, not_true_eq_false, if_false, hrun]

/-- For the 6 x 2 sample image at a 16-aligned address the run of
`vectorisationNegateFilter` ends at the lane of row 1, after the accesses of
row 0, without a call of the encode step. -/
theorem vectorisationNegateFilter_crash_6x2 :
    vectorisationNegateFilter rampCodec "input.png" "outputNegativeVect.png"
      = [.decode "input.png", .access ⟨0, .lane 0⟩, .access ⟨0, .byte 16⟩,
         .access ⟨0, .byte 17⟩, .crash] := by
  decide

/-- C12 (the code as it is): the fourth call of `main` names
`userOMPVectorizationFilters`, a name that no function of the file has; the
wrapper of the parallel vectorised strategy, `userOMPVectorizationNegativeFilter`,
is defined but `main` never calls it, so `main` does not run the four
strategies. The rest of the claim holds: the first three calls are the
wrappers of the sequential, parallel and vectorised strategies in this order,
every wrapper passes the input name `input.png`, and the four output names
are pairwise distinct. -/
theorem main_calls_undefined_wrapper :
    (mainCalls = ["userConsistentNegativeFilter", "userOMPNegativeFilter",
        "userVectorizationNegativeFilter", "userOMPVectorizationFilters"] ∧
      "userOMPVectorizationFilters" ∉ definedFunctions ∧
      "userOMPVectorizationNegativeFilter" ∈ definedFunctions ∧
      "userOMPVectorizationNegativeFilter" ∉ mainCalls) ∧
    (∀ pixels rows lib,
      callByName pixels rows lib "userOMPVectorizationFilters" = none ∧
      main pixels rows lib = none) ∧
    (∀ pixels rows lib,
      userConsistentNegativeFilter lib = negateImage lib "input.png" "outputNegative.png" ∧
      userOMPNegativeFilter pixels lib
        = negateImageOMP pixels lib "input.png" "outputNegativeOMP.png" ∧
      userVectorizationNegativeFilter lib
        = vectorisationNegateFilter lib "input.png" "outputNegativeVect.png" ∧
      userOMPVectorizationNegativeFilter rows lib
        = OpenMPVectorisationNnegateFilter rows lib "input.png"
            "outputNegativeOpenMPVect.png") ∧
    ["outputNegative.png", "outputNegativeOMP.png", "outputNegativeVect.png",
      "outputNegativeOpenMPVect.png"].Nodup := by
  refine ⟨⟨rfl, by decide, by decide, by decide⟩, ?_, ?_, by decide⟩
  · intro pixels rows lib
    have h : callByName pixels rows lib "userOMPVectorizationFilters" = none := by
      unfold callByName
      simp
    refine ⟨h, ?_⟩
    unfold main mainCalls
    simp only [List.foldl_cons, List.foldl_nil, h]
    cases callByName pixels rows lib "userConsistentNegativeFilter" <;>
      cases callByName pixels rows lib "userOMPNegativeFilter" <;>
      cases callByName pixels rows lib "userVectorizationNegativeFilter" <;> rfl
  · intro pixels rows lib
    exact ⟨rfl, rfl, rfl, rfl⟩

/-! ## C13: distinct iterations touch distinct bytes -/

/-- C13: when `width*height*3 < 2^32`, (1) the accesses of the pixel body for
`(y, x)` lie in the 3-byte range `[(y*width+x)*3, (y*width+x)*3 + 3)`, and two
distinct iterations `(y, x)`, `(y', x')` of the loop of `negateImageOMP` touch
disjoint sets of offsets; (2) every lane and scalar access of the row body for
`y` lies in `[y*width*3, (y+1)*width*3)`, and two distinct iterations `y`, `y'`
of the loop of `OpenMPVectorisationNnegateFilter` touch disjoint sets of
offsets. This holds whichever workers execute the iterations. -/
theorem iterations_disjoint (width height : Nat) (bytes : List Byte)
    (hb : width * height * 3 < 2 ^ 32) :
    (∀ t y x, y < height → x < width →
      ∀ p ∈ positionsOf (negatePixel t width y x (Image.ofBytes bytes)).log,
        (y * width + x) * 3 ≤ p ∧ p < (y * width + x) * 3 + 3) ∧
    (∀ t t2 y x y2 x2, y < height → x < width → y2 < height → x2 < width →
      (y, x) ≠ (y2, x2) →
      List.Disjoint (positionsOf (negatePixel t width y x (Image.ofBytes bytes)).log)
        (positionsOf (negatePixel t2 width y2 x2 (Image.ofBytes bytes)).log)) ∧
    (∀ t y, y < height →
      ∀ p ∈ positionsOf (negateRow t width y (Image.ofBytes bytes)).log,
        y * width * 3 ≤ p ∧ p < (y + 1) * width * 3) ∧
    (∀ t t2 y y2, y < height → y2 < height → y ≠ y2 →
      List.Disjoint (positionsOf (negateRow t width y (Image.ofBytes bytes)).log)
        (positionsOf (negateRow t2 width y2 (Image.ofBytes bytes)).log)) := by
  have hpix : ∀ t y x, y < height → x < width →
      positionsOf (negatePixel t width y x (Image.ofBytes bytes)).log
        = List.range' ((y * width + x) * 3) 3 := by
    intro t y x hy hx
    rw [(negatePixel_traced t width y x).log_ofBytes, pixelLog_positions t hb hy hx]
  have hrow : ∀ t y, y < height →
      positionsOf (negateRow t width y (Image.ofBytes bytes)).log
        = List.range' (y * (width * 3)) (width * 3) := by
    intro t y hy
    rw [(negateRow_traced t width y).log_ofBytes, rowLog_positions t hb hy]
  refine ⟨?_, ?_, ?_, ?_⟩
  · intro t y x hy hx p hp
    rw [hpix t y x hy hx, List.mem_range'_1] at hp
    exact hp
  · intro t t2 y x y2 x2 hy hx hy2 hx2 hne p hp hp2
    rw [hpix t y x hy hx, List.mem_range'_1] at hp
    rw [hpix t2 y2 x2 hy2 hx2, List.mem_range'_1] at hp2
    have heq : y * width + x = y2 * width + x2 := by omega
    obtain ⟨h1, h2⟩ := pixel_unique hx hx2 heq
    exact hne (Prod.ext h1 h2)
  · intro t y hy p hp
    rw [hrow t y hy, List.mem_range'_1] at hp
    have e1 : y * width * 3 = y * (width * 3) := Nat.mul_assoc _ _ _
    have e2 : (y + 1) * width * 3 = y * (width * 3) + width * 3 := by ring
    omega
  · intro t t2 y y2 hy hy2 hne p hp hp2
    rw [hrow t y hy, List.mem_range'_1] at hp
    rw [hrow t2 y2 hy2, List.mem_range'_1] at hp2
    exact hne (block_unique hp.1 hp.2 hp2.1 hp2.2)

theorem iterations_disjoint_witness :
    6 * 2 * 3 < 2 ^ 32 ∧
    List.Disjoint (positionsOf (negateRow 0 6 0 (Image.ofBytes (rampImage 36).bytes)).log)
      (positionsOf (negateRow 1 6 1 (Image.ofBytes (rampImage 36).bytes)).log) :=
  ⟨by decide,
    (iterations_disjoint 6 2 (rampImage 36).bytes (by decide)).2.2.2 0 1 0 1
      (by decide) (by decide) (by decide)⟩

/-! ## C14: the lane subtraction -/

theorem ones_eq : ones = List.replicate 16 (255 : Byte) := rfl

theorem zipWith_replicate_left {α β γ : Type} (f : α → β → γ) (c : α) (n : Nat)
    (d : List β) (hd : d.length ≤ n) :
    List.zipWith f (List.replicate n c) d = d.map (f c) := by
  induction d generalizing n with
  | nil => simp
  | cons b bs ih =>
    cases n with
    | zero => simp at hd
    | succ n =>
      rw [List.replicate_succ, List.zipWith_cons_cons, List.map_cons,
        ih n (by simpa using hd)]

/-- Subtracting a lane from `ones` negates each of its bytes. -/
theorem sub_ones_eq_map (d : List Byte) (hd : d.length ≤ 16) :
    _mm_sub_epi8 ones d = d.map negByte := by
  unfold _mm_sub_epi8
  rw [ones_eq, zipWith_replicate_left _ _ _ _ hd]
  rfl

theorem laneValue_lt (d : List Byte) : laneValue d < 256 ^ d.length := by
  induction d with
  | nil => simp [laneValue]
  | cons b bs ih =>
    have hb := b.isLt
    simp only [laneValue, List.length_cons, Nat.pow_succ]
    omega

/-- The integers of a lane and of its bytewise negation add up to the
all-ones integer of the same width: no borrow crosses a byte boundary. -/
theorem laneValue_map_negByte (d : List Byte) :
    laneValue (d.map negByte) + laneValue d + 1 = 256 ^ d.length := by
  induction d with
  | nil => simp [laneValue]
  | cons b bs ih =>
    have hb := b.isLt
    have hv := negByte_val b
    simp only [laneValue, List.map_cons, List.length_cons, Nat.pow_succ]
    omega

theorem laneValue_ones : laneValue ones + 1 = 2 ^ 128 := by decide

/-- The lane operation, offset by offset. -/
theorem negateLaneAt_getElem? (tid row i : Nat) (image : Image) :
    (negateLaneAt tid row image).bytes[i]?
      = if row ≤ i ∧ i < row + 16 then (image.bytes[i]?).map negByte
        else image.bytes[i]? := by
  have h : positionsOf [⟨tid, .lane row⟩] = List.range' row 16 := by
    simp [positionsOf, Access.positions]
  rw [negateLaneAt_traced tid row image]
  simp only [h]
  rw [negAll_of_nodup _ (List.nodup_range' row 16)]
  simp only [List.mem_range'_1]

/-- C14: for every 16-byte lane `d`, `_mm_sub_epi8(ones, d)` with
`ones = _mm_set1_epi8(255)` (sixteen bytes `0xFF`) is a 16-byte lane whose
byte `k` is `255 - d[k]`; each bytewise difference lies in `[0, 255]`, so the
8-bit subtraction does not wrap; the integer the result represents is the
128-bit difference of the integers of `ones` and `d`, which does not wrap
either. The lane body stores the result at the offset it loaded from: the
bytes at `row .. row + 15` are negated and all other bytes are kept. -/
theorem lane_negation_bytewise (d : List Byte) (hd : d.length = 16) :
    (ones = List.replicate 16 (255 : Byte) ∧ (_mm_sub_epi8 ones d).length = 16) ∧
    (∀ k, k < 16 →
      ((_mm_sub_epi8 ones d).getD k 0).val = 255 - (d.getD k 0).val ∧
      0 ≤ ((ones.getD k 0).val : Int) - ((d.getD k 0).val : Int) ∧
      ((ones.getD k 0).val : Int) - ((d.getD k 0).val : Int) < 256) ∧
    ((laneValue (_mm_sub_epi8 ones d) : Int) = wideSubtract ones d ∧
      wideSubtract ones d = (laneValue ones : Int) - (laneValue d : Int) ∧
      laneValue d ≤ laneValue ones) ∧
    (∀ tid row image,
      (negateLaneAt tid row image).bytes
        = _mm_store_si128 image.bytes row
            (_mm_sub_epi8 ones (_mm_load_si128 image.bytes row)) ∧
      ∀ i, (negateLaneAt tid row image).bytes[i]?
        = if row ≤ i ∧ i < row + 16 then (image.bytes[i]?).map negByte
          else image.bytes[i]?) := by
  have hmap := sub_ones_eq_map d (by omega)
  have hsum := laneValue_map_negByte d
  have hones := laneValue_ones
  have hlt := laneValue_lt d
  rw [hd] at hsum hlt
  have h256 : (256 : Nat) ^ 16 = 2 ^ 128 := by norm_num
  rw [h256] at hsum hlt
  refine ⟨⟨ones_eq, by rw [hmap, List.length_map, hd]⟩, ?_, ?_, ?_⟩
  · intro k hk
    have hb := (d.getD k 0).isLt
    have ho : (ones.getD k 0).val = 255 := by
      rw [List.getD_eq_getElem?_getD, ones_eq, replicate_getElem? 16 k 255 hk]
      rfl
    refine ⟨?_, by omega, by omega⟩
    have hk2 : k < d.length := by omega
    have h : (d.map negByte).getD k 0 = negByte (d.getD k 0) := by
      simp [List.getD_eq_getElem?_getD, hk2]
    rw [hmap, h, negByte_val]
  · rw [hmap]
    have hw : wideSubtract ones d = (laneValue ones : Int) - (laneValue d : Int) := by
      unfold wideSubtract
      apply Int.emod_eq_of_lt <;> omega
    refine ⟨?_, hw, by omega⟩
    rw [hw]
    omega
  · intro tid row image
    refine ⟨?_, fun i => negateLaneAt_getElem? tid row i image⟩
    simp only [negateLaneAt]

theorem lane_negation_bytewise_witness :
    ((rampImage 16).bytes.length = 16) ∧
    (∀ k, k < 16 →
      ((_mm_sub_epi8 ones (rampImage 16).bytes).getD k 0).val
        = 255 - ((rampImage 16).bytes.getD k 0).val ∧
      0 ≤ ((ones.getD k 0).val : Int) - (((rampImage 16).bytes.getD k 0).val : Int) ∧
      ((ones.getD k 0).val : Int) - (((rampImage 16).bytes.getD k 0).val : Int) < 256) :=
  ⟨by decide, (lane_negation_bytewise (rampImage 16).bytes (by decide)).2.1⟩

/-! ## C15: negation is the bitwise complement -/

set_option maxRecDepth 100000 in
theorem complement_val : ∀ b : Byte, 255 - b.val = b.val ^^^ 255 := by decide

/-- C15: for every byte `b`, the value `255 - b` computed in `int` lies in
`[0, 255]`, so the conversion to `unsigned char` does not change it, and the
byte the kernels store is the bitwise complement of `b` on 8 bits,
`b XOR 0xFF`. The byte statement of the kernels stores exactly this value. -/
theorem negation_is_complement (b : Byte) :
    (0 ≤ (255 : Int) - (b.val : Int) ∧ (255 : Int) - (b.val : Int) < 256) ∧
    ((toUChar (255 - (b.val : Int))).val : Int) = 255 - (b.val : Int) ∧
    (toUChar (255 - (b.val : Int))).val = b.val ^^^ 255 ∧
    (∀ tid i image,
      (negateByteAt tid i image).bytes
        = image.bytes.set i (toUChar (255 - ((image.bytes.getD i 0).val : Int)))) := by
  have hb := b.isLt
  have hv : (toUChar (255 - (b.val : Int))).val = 255 - b.val := negByte_val b
  refine ⟨⟨by omega, by omega⟩, by omega, ?_, fun _ _ _ => rfl⟩
  rw [hv]
  exact complement_val b

/-! ## C16: accesses in bounds, indices without wrap-around -/

/-- Without wrap-around a lane access of the row body lies inside its row. -/
theorem lane_in_row {width height y : Nat} (tid : Nat) (hb : width * height * 3 < 2 ^ 32)
    (hy : y < height) (e : Entry) (he : e ∈ rowLog tid width y) (pos : Nat)
    (hl : e.acc = .lane pos) :
    ∃ o, pos = y * (3 * width) + o ∧ o + 16 ≤ 3 * width := by
  rw [rowLog_eq tid hb hy] at he
  simp only [laneEntries, byteEntries, List.mem_append, List.mem_map, List.mem_range] at he
  rcases he with ⟨j, hj, hje⟩ | ⟨j, _, hje⟩
  · rw [← hje] at hl
    simp only [Access.lane.injEq] at hl
    refine ⟨16 * j, hl.symm, ?_⟩
    have := Nat.div_mul_le_self (3 * width) 16
    have h2 : (j + 1) * 16 ≤ (3 * width / 16) * 16 := Nat.mul_le_mul_right 16 hj
    omega
  · rw [← hje] at hl
    simp at hl

/-- C16: when `width*height*3 < 2^32` and the buffer has `width*height*3`
bytes, (1) every index the kernels compute in unsigned 32-bit arithmetic has
its exact value: `(y*width + x)*3 + c` with its intermediate results in the
pixel kernels, `y*width*3` and `width*3` in the vectorised kernels; (2) every
byte touched by any access of the four kernels is at an offset below the
buffer length; (3) every 16-byte lane access of the vectorised kernels is at
an offset `o` of a row `y < height` with `o + 16 <= 3*width`, so no lane goes
past the end of its row. -/
theorem accesses_in_bounds (width height : Nat) (bytes : List Byte)
    (pixels : List (Nat × (Nat × Nat))) (rows : List (Nat × Nat))
    (hb : width * height * 3 < 2 ^ 32) (hlen : bytes.length = width * height * 3)
    (hp : CollapsedSchedule width height pixels) (hr : RowSchedule height rows) :
    ((∀ y x c, y < height → x < width → c < 3 →
        umul y width = y * width ∧ uadd (umul y width) x = y * width + x ∧
        umul (uadd (umul y width) x) 3 = (y * width + x) * 3 ∧
        uadd (umul (uadd (umul y width) x) 3) c = (y * width + x) * 3 + c) ∧
      ∀ y, y < height → umul (umul y width) 3 = y * width * 3 ∧ umul width 3 = width * 3) ∧
    ((∀ p ∈ positionsOf (negateImage_loop width height (Image.ofBytes bytes)).log,
        p < bytes.length) ∧
      (∀ p ∈ positionsOf (negateImageOMP_loop width pixels (Image.ofBytes bytes)).log,
        p < bytes.length) ∧
      (∀ p ∈ positionsOf (vectorisationNegateFilter_loop width height
          (Image.ofBytes bytes)).log, p < bytes.length) ∧
      (∀ p ∈ positionsOf (OpenMPVectorisationNnegateFilter_loop width rows
          (Image.ofBytes bytes)).log, p < bytes.length)) ∧
    ((∀ e ∈ (vectorisationNegateFilter_loop width height (Image.ofBytes bytes)).log,
        ∀ pos, e.acc = .lane pos →
          ∃ y o, y < height ∧ pos = y * (3 * width) + o ∧ o + 16 ≤ 3 * width) ∧
      (∀ e ∈ (OpenMPVectorisationNnegateFilter_loop width rows (Image.ofBytes bytes)).log,
        ∀ pos, e.acc = .lane pos →
          ∃ y o, y < height ∧ pos = y * (3 * width) + o ∧ o + 16 ≤ 3 * width)) := by
  rw [(negateImage_loop_traced width height).log_ofBytes,
    (negateImageOMP_loop_traced width pixels).log_ofBytes,
    (vectorisationNegateFilter_loop_traced width height).log_ofBytes,
    (OpenMPVectorisationNnegateFilter_loop_traced width rows).log_ofBytes, hlen]
  refine ⟨⟨?_, ?_⟩, ⟨?_, ?_, ?_, ?_⟩, ?_, ?_⟩
  · intro y x c hy hx hc
    have h := pixel_index_lt hy hx
    have h0 : y * width ≤ y * width + x := Nat.le_add_right _ _
    have e1 : umul y width = y * width := Nat.mod_eq_of_lt (by omega)
    have e2 : uadd (y * width) x = y * width + x := Nat.mod_eq_of_lt (by omega)
    have e3 : umul (y * width + x) 3 = (y * width + x) * 3 := Nat.mod_eq_of_lt (by omega)
    have e4 : uadd ((y * width + x) * 3) c = (y * width + x) * 3 + c :=
      Nat.mod_eq_of_lt (by omega)
    rw [e1, e2, e3, e4]
    exact ⟨rfl, rfl, rfl, rfl⟩
  · intro y hy
    have h := row_index_le width hy
    have h0 : y * width ≤ y * width * 3 := Nat.le_mul_of_pos_right _ (by omega)
    have e1 : umul y width = y * width := Nat.mod_eq_of_lt (by omega)
    have e2 : umul (y * width) 3 = y * width * 3 := Nat.mod_eq_of_lt (by omega)
    have e3 : umul width 3 = width * 3 := Nat.mod_eq_of_lt (by omega)
    rw [e1, e2, e3]
    exact ⟨rfl, rfl⟩
  · intro p hmem
    rw [negateImage_log_positions hb] at hmem
    exact List.mem_range.1 hmem
  · intro p hmem
    have h2 := (List.Perm.mem_iff (negateImageOMP_log_perm hp)).1 hmem
    rw [negateImage_log_positions hb] at h2
    exact List.mem_range.1 h2
  · intro p hmem
    rw [vectorisationNegateFilter_log_positions hb] at hmem
    exact List.mem_range.1 hmem
  · intro p hmem
    have h2 := (List.Perm.mem_iff (OpenMPVectorisationNnegateFilter_log_perm hr)).1 hmem
    rw [vectorisationNegateFilter_log_positions hb] at h2
    exact List.mem_range.1 h2
  · intro e he pos hl
    unfold vectorisationNegateFilter_log at he
    obtain ⟨y, hy, he2⟩ := List.mem_flatMap.1 he
    have hy2 := List.mem_range.1 hy
    obtain ⟨o, h1, h2⟩ := lane_in_row 0 hb hy2 e he2 pos hl
    exact ⟨y, o, hy2, h1, h2⟩
  · intro e he pos hl
    unfold OpenMPVectorisationNnegateFilter_log at he
    obtain ⟨s, hs, he2⟩ := List.mem_flatMap.1 he
    have hy2 : s.2 < height :=
      List.mem_range.1 ((List.Perm.mem_iff hr).1 (List.mem_map.2 ⟨s, hs, rfl⟩))
    obtain ⟨o, h1, h2⟩ := lane_in_row s.1 hb hy2 e he2 pos hl
    exact ⟨s.2, o, hy2, h1, h2⟩

theorem accesses_in_bounds_witness :
    6 * 2 * 3 < 2 ^ 32 ∧ (rampImage 36).bytes.length = 6 * 2 * 3 ∧
    CollapsedSchedule 6 2 (singleWorkerPixels 6 2) ∧ RowSchedule 2 [(1, 1), (0, 0)] ∧
    (∀ p ∈ positionsOf (vectorisationNegateFilter_loop 6 2
        (Image.ofBytes (rampImage 36).bytes)).log, p < (rampImage 36).bytes.length) :=
  ⟨by decide, by decide, by unfold CollapsedSchedule; decide, by unfold RowSchedule; decide,
    (accesses_in_bounds 6 2 (rampImage 36).bytes (singleWorkerPixels 6 2) [(1, 1), (0, 0)]
      (by decide) (by decide) (by unfold CollapsedSchedule; decide)
      (by unfold RowSchedule; decide)).2.1.2.2.1⟩

end NegativeFilter
